import Mathlib

set_option linter.unusedSectionVars false

/-!
Verification of the clorm fact-base query engine (src/clorm/orm.py and
src/clorm/orm/factbase.py) against its natural-language specification.

The Python code is shallowly embedded: Python `set` becomes `Finset`,
`dict` key → set-of-facts becomes a total function `κ → Finset Fact`
(Python's dict never holds an empty bucket here, so key-membership is
bucket-nonemptiness), and raised exceptions become `Except PyErr`.
Facts of one predicate type are an abstract type `Fact`; the value of an
indexed field (`_FieldPathEval`) is a function `Fact → κ`.  `bisect` is
called by the source only on the sorted `_keylist`, where `bisect_left`
returns the length of the prefix of elements `< key` and `bisect_right`
the length of the prefix of elements `≤ key`; the embedding uses that
characterisation.
-/

namespace Clorm

/-- Exception kinds raised by the embedded code. -/
inductive PyErr where
  | typeError
  | valueError
  | keyError
  | nameError
  | indexError
deriving DecidableEq, Repr

/-- The six comparison operators `operator.eq/ne/lt/le/gt/ge` accepted by
`_FactIndex.find` and produced by the field comparison overloads. -/
inductive CompOp where
  | eq
  | ne
  | lt
  | le
  | gt
  | ge
deriving DecidableEq, Repr

/-- Application of a comparison operator to two values of one ordered key
type (Python applies the operators of the key's type; the engine requires
keys of an indexed field to be mutually comparable). -/
def CompOp.apply {κ : Type} [LinearOrder κ] : CompOp → κ → κ → Bool
  | .eq, a, b => a = b
  | .ne, a, b => a ≠ b
  | .lt, a, b => a < b
  | .le, a, b => a ≤ b
  | .gt, a, b => b < a
  | .ge, a, b => b ≤ a

/-- `bisect.bisect_left(l, k)` on the sorted keylist: the number of keys
strictly below `k`, i.e. the length of the prefix of elements `< k`. -/
def bisectLeft {κ : Type} [LinearOrder κ] (l : List κ) (k : κ) : Nat :=
  (l.takeWhile (fun x => x < k)).length

/-- `bisect.bisect_right(l, k)` on the sorted keylist: the number of keys
`≤ k`, i.e. the length of the prefix of elements not exceeding `k`. -/
def bisectRight {κ : Type} [LinearOrder κ] (l : List κ) (k : κ) : Nat :=
  (l.takeWhile (fun x => x ≤ k)).length

/-- `_FactIndex` state: the sorted list of distinct keys and the
key → set-of-facts dictionary (absent key ↦ `∅`). -/
structure FactIndex (κ Fact : Type) where
  keylist : List κ
  key2values : κ → Finset Fact

/-- `_FactIndex.__init__`: empty keylist, empty dictionary. -/
def FactIndex.empty (κ Fact : Type) [DecidableEq Fact] : FactIndex κ Fact :=
  { keylist := [], key2values := fun _ => ∅ }

variable {κ Fact : Type} [LinearOrder κ] [DecidableEq Fact]

/-- `_FactIndex.add(fact)`: compute the key, add the fact to the key's
bucket, then maintain the sorted keylist — if `keylist[posn]` at the
`bisect_left` position already equals the key do nothing, else
`insort_left` the key (insert at the `bisect_left` position). -/
def FactIndex.add (keyOf : Fact → κ) (s : FactIndex κ Fact) (fact : Fact) :
    FactIndex κ Fact :=
  let key := keyOf fact
  let k2v := fun k => if k = key then insert fact (s.key2values k) else s.key2values k
  let posn := bisectLeft s.keylist key
  if s.keylist[posn]? = some key then { keylist := s.keylist, key2values := k2v }
  else { keylist := s.keylist.insertIdx posn key, key2values := k2v }

/-- `_FactIndex.remove(fact, raise_on_missing)`: if the key has no bucket,
raise `KeyError` (strict) or return unchanged; otherwise delete the fact
from the bucket (`set.remove` raises `KeyError` when strict and the fact
is absent, `set.discard` does not); if the bucket becomes empty drop the
key from the dictionary and delete the keylist entry at the `bisect_left`
position. -/
def FactIndex.remove (keyOf : Fact → κ) (s : FactIndex κ Fact) (fact : Fact)
    (raiseOnMissing : Bool) : Except PyErr (FactIndex κ Fact) :=
  let key := keyOf fact
  if s.key2values key = ∅ then
    if raiseOnMissing then .error .keyError else .ok s
  else
    let values := s.key2values key
    if raiseOnMissing = true ∧ fact ∉ values then .error .keyError
    else
      let newValues := values.erase fact
      if newValues ≠ ∅ then
        .ok { keylist := s.keylist,
              key2values := fun k => if k = key then newValues else s.key2values k }
      else
        .ok { keylist := s.keylist.eraseIdx (bisectLeft s.keylist key),
              key2values := fun k => if k = key then ∅ else s.key2values k }

/-- `_FactIndex.clear()`. -/
def FactIndex.clear (s : FactIndex κ Fact) : FactIndex κ Fact :=
  let _ := s
  { keylist := [], key2values := fun _ => ∅ }

/-- `_FactIndex._keys_eq`: the single key if it has a bucket. -/
def FactIndex.keysEq (s : FactIndex κ Fact) (key : κ) : List κ :=
  if s.key2values key ≠ ∅ then [key] else []

/-- `_FactIndex._keys_ne`: keylist prefix before `bisect_left` (if the
position is nonzero) plus the suffix from `bisect_right` (if that
position is nonzero). -/
def FactIndex.keysNe (s : FactIndex κ Fact) (key : κ) : List κ :=
  let posn1 := bisectLeft s.keylist key
  let left := if posn1 ≠ 0 then s.keylist.take posn1 else []
  let posn2 := bisectRight s.keylist key
  let right := if posn2 ≠ 0 then s.keylist.drop posn2 else []
  left ++ right

/-- `_FactIndex._keys_lt`: keylist prefix before `bisect_left`, provided
the position is nonzero. -/
def FactIndex.keysLt (s : FactIndex κ Fact) (key : κ) : List κ :=
  let posn := bisectLeft s.keylist key
  if posn ≠ 0 then s.keylist.take posn else []

/-- `_FactIndex._keys_le`: keylist prefix before `bisect_right`, provided
the position is nonzero. -/
def FactIndex.keysLe (s : FactIndex κ Fact) (key : κ) : List κ :=
  let posn := bisectRight s.keylist key
  if posn ≠ 0 then s.keylist.take posn else []

/-- `_FactIndex._keys_gt`: keylist suffix from `bisect_right`, provided
the position is nonzero (when the position is zero the code returns `[]`). -/
def FactIndex.keysGt (s : FactIndex κ Fact) (key : κ) : List κ :=
  let posn := bisectRight s.keylist key
  if posn ≠ 0 then s.keylist.drop posn else []

/-- `_FactIndex._keys_ge`: keylist suffix from `bisect_left`, provided
the position is nonzero (when the position is zero the code returns `[]`). -/
def FactIndex.keysGe (s : FactIndex κ Fact) (key : κ) : List κ :=
  let posn := bisectLeft s.keylist key
  if posn ≠ 0 then s.keylist.drop posn else []

/-- `_FactIndex.find(op, key)`: dispatch on the operator to one of the
`_keys_*` helpers, then return the union of the buckets of the selected
keys (`set()` when no key was selected). -/
def FactIndex.find (s : FactIndex κ Fact) (op : CompOp) (key : κ) : Finset Fact :=
  let keys : List κ :=
    match op with
    | .eq => s.keysEq key
    | .ne => s.keysNe key
    | .lt => s.keysLt key
    | .le => s.keysLe key
    | .gt => s.keysGt key
    | .ge => s.keysGe key
  keys.foldr (fun k acc => s.key2values k ∪ acc) ∅

/-- The full-scan side of the index/scan equivalence: filter the fact set
by directly evaluating the comparison `keyOf f  op  v` on every fact (the
no-index branch of `_Select.get` specialised to a single comparison). -/
def scanFind (facts : Finset Fact) (keyOf : Fact → κ) (op : CompOp) (v : κ) :
    Finset Fact :=
  facts.filter (fun f => CompOp.apply op (keyOf f) v)

/-- One entry of `_FactMap._findexes`: the index together with the
`_FieldPathEval` key extractor of its field path. -/
structure IndexEntry (κ Fact : Type) where
  keyOf : Fact → κ
  idx : FactIndex κ Fact

/-- `_FactMap` state: the fact set `_allfacts` and the indexes declared at
construction (all keys of one map are embedded at a single key type). -/
structure FactMap (κ Fact : Type) where
  allfacts : Finset Fact
  findexes : List (IndexEntry κ Fact)

/-- `_FactMap.add(fact)`: insert into the fact set, then into every index. -/
def FactMap.add (fm : FactMap κ Fact) (fact : Fact) : FactMap κ Fact :=
  { allfacts := insert fact fm.allfacts,
    findexes := fm.findexes.map (fun e => { e with idx := e.idx.add e.keyOf fact }) }

/-- The `for findex in self._findexes.values(): findex.remove(...)` loop of
`_FactMap.remove`: each index is updated in turn; a raised `KeyError`
stops the loop, leaving the current and the remaining indexes untouched. -/
def indexesRemove (fact : Fact) (raiseOnMissing : Bool) :
    List (IndexEntry κ Fact) → Except PyErr Unit × List (IndexEntry κ Fact)
  | [] => (.ok (), [])
  | e :: rest =>
    match FactIndex.remove e.keyOf e.idx fact raiseOnMissing with
    | .error err => (.error err, e :: rest)
    | .ok idx' =>
      let tail := indexesRemove fact raiseOnMissing rest
      (tail.1, { e with idx := idx' } :: tail.2)

/-- `_FactMap.remove(fact, raise_on_missing)`: `set.remove` (strict) raises
`KeyError` before anything is touched when the fact is absent; otherwise
the fact set is updated first and then each index. -/
def FactMap.remove (fm : FactMap κ Fact) (fact : Fact) (raiseOnMissing : Bool) :
    Except PyErr Unit × FactMap κ Fact :=
  if raiseOnMissing = true ∧ fact ∉ fm.allfacts then (.error .keyError, fm)
  else
    let facts' := fm.allfacts.erase fact
    let r := indexesRemove fact raiseOnMissing fm.findexes
    (r.1, { allfacts := facts', findexes := r.2 })

/-- `_FactMap.discard(fact)` = `remove(fact, False)`. -/
def FactMap.discard (fm : FactMap κ Fact) (fact : Fact) :
    Except PyErr Unit × FactMap κ Fact :=
  fm.remove fact false

/-- `_FactMap.clear()`: clear the fact set and every index. -/
def FactMap.clear (fm : FactMap κ Fact) : FactMap κ Fact :=
  { allfacts := ∅,
    findexes := fm.findexes.map (fun e => { e with idx := e.idx.clear }) }

/-- `functools.cmp_to_key` + `list.sort`: Python's sort is stable, and a
stable sort is uniquely determined by the comparator, so it is embedded as
insertion sort on the relation `cmp a b ≤ 0`. -/
def stableSortByCmp (cmp : Fact → Fact → Int) (l : List Fact) : List Fact :=
  l.insertionSort (fun a b => cmp a b ≤ 0)

/-- `_Select` state after the fluent calls: the (already simplified and
placeholder-carrying) `_where` functor, the `_indexable` triple chosen by
`_primary_search` (the index identified by its position in the fact map's
index list, plus operator and the `get_value` resolution of the bound
value), and the `_key` sort comparator built by `order_by`.  The
placeholder binding of a `get`/`execute` call is an opaque `β` consumed by
the stored functions. -/
structure Sel (κ Fact β : Type) where
  whereFn : Option (Fact → β → Bool)
  indexable : Option (Nat × CompOp × (β → κ))
  sortCmp : Option (Fact → Fact → Int)

/-- Application of `self._where` to a candidate: a missing where clause
accepts every fact (lines 1950-1952; on the indexed branch the source
calls `self._where` directly, which is always set when `_indexable` is,
because `_primary_search` runs inside `where()`). -/
def Sel.whereApp {β : Type} (sel : Sel κ Fact β) (f : Fact) (b : β) : Bool :=
  match sel.whereFn with
  | none => true
  | some w => w f b

/-- Iteration over a Python `set`: a deterministic but unspecified order;
the embedding enumerates a `Finset` in a fixed canonical order. -/
def setIter [LinearOrder Fact] (s : Finset Fact) : List Fact :=
  s.sort (· ≤ ·)

/-- The `result` list built by the body of `_Select.get` before the final
sort: without an indexable pre-filter, scan the whole fact set and keep
the facts accepted by the where clause; with one, resolve the bound
value, run `find` on the chosen index and keep the found facts accepted
by the where clause. -/
def selectGetBase {β : Type} [LinearOrder Fact] (fm : FactMap κ Fact)
    (sel : Sel κ Fact β) (b : β) : List Fact :=
  match sel.indexable with
  | none => (setIter fm.allfacts).filter (fun f => sel.whereApp f b)
  | some (i, op, argv) =>
    match fm.findexes.get? i with
    | none => []
    | some e => (setIter (e.idx.find op (argv b))).filter (fun f => sel.whereApp f b)

/-- `_Select.get`: the `result` list, sorted when an `order_by` key is set. -/
def selectGet {β : Type} [LinearOrder Fact] (fm : FactMap κ Fact) (sel : Sel κ Fact β)
    (b : β) : List Fact :=
  match sel.sortCmp with
  | none => selectGetBase fm sel b
  | some c => stableSortByCmp c (selectGetBase fm sel b)

/-- The `for fact in to_delete: self._factmap.remove(fact)` loop of
`_Delete.execute`: strict removal of each gathered fact in turn; a raised
error stops the loop, keeping the partial state. -/
def removeAll (fm : FactMap κ Fact) :
    List Fact → Except PyErr Unit × FactMap κ Fact
  | [] => (.ok (), fm)
  | f :: rest =>
    let r := fm.remove f true
    match r.1 with
    | .error err => (.error err, r.2)
    | .ok _ => removeAll r.2 rest

/-- `_Delete.execute` for a where-bound delete (`self._select.has_where`):
gather the facts returned by the underlying `_Select.get`, strictly remove
each from the fact map, and return the number gathered. -/
def deleteExecute {β : Type} [LinearOrder Fact] (fm : FactMap κ Fact)
    (sel : Sel κ Fact β) (b : β) : Except PyErr Nat × FactMap κ Fact :=
  let toDelete := selectGet fm sel b
  let r := removeAll fm toDelete
  match r.1 with
  | .error err => (.error err, r.2)
  | .ok _ => (.ok toDelete.length, r.2)

/-- The dictionary of a fact index is in lock-step with a fact set when
every bucket holds exactly the facts of the set mapping to its key. -/
def FactIndex.bucketInv (keyOf : Fact → κ) (facts : Finset Fact)
    (s : FactIndex κ Fact) : Prop :=
  ∀ k, s.key2values k = facts.filter (fun f => keyOf f = k)

/-- The keylist of a fact index is well formed for a fact set when it is
strictly sorted and holds exactly the keys of the facts of the set. -/
def FactIndex.keyInv (keyOf : Fact → κ) (facts : Finset Fact)
    (s : FactIndex κ Fact) : Prop :=
  s.keylist.Sorted (· < ·) ∧
    ∀ k, k ∈ s.keylist ↔ (facts.filter (fun f => keyOf f = k)).Nonempty

/-- A record is present in a fact index when some bucket holds it. -/
def FactIndex.memFact (s : FactIndex κ Fact) (f : Fact) : Prop :=
  ∃ k, f ∈ s.key2values k

/-- Internal consistency of a fact map: every declared index is in
lock-step with the fact set, buckets and keylist alike. -/
def FactMap.inv (fm : FactMap κ Fact) : Prop :=
  ∀ e ∈ fm.findexes,
    FactIndex.bucketInv e.keyOf fm.allfacts e.idx ∧
    FactIndex.keyInv e.keyOf fm.allfacts e.idx

/-- The spec's lock-step property: a record is present in each of the fact
map's indexes iff it is present in the fact map's fact set. -/
def FactMap.lockstep (fm : FactMap κ Fact) : Prop :=
  ∀ e ∈ fm.findexes, ∀ f, e.idx.memFact f ↔ f ∈ fm.allfacts

/-- The key-selection semantics realised by `_FactIndex.find` under the
index invariants: `eq/lt/le` select exactly the matching keys, while
`ne/gt/ge` additionally require the existential guard introduced by the
`if posn:` tests of `_keys_ne/_keys_gt/_keys_ge` (the guard is phrased
over the fact set via the keylist invariant). -/
def keyCond (facts : Finset Fact) (keyOf : Fact → κ) (op : CompOp) (v k : κ) :
    Prop :=
  match op with
  | .eq => k = v
  | .ne => k < v ∨ (v < k ∧ ∃ f ∈ facts, keyOf f ≤ v)
  | .lt => k < v
  | .le => k ≤ v
  | .gt => v < k ∧ ∃ f ∈ facts, keyOf f ≤ v
  | .ge => v ≤ k ∧ ∃ f ∈ facts, keyOf f < v

/-- A one-index fact map over integer facts keyed by their own value, used
to instantiate the invariant-carrying theorems. -/
def fmIntW : FactMap ℤ ℤ :=
  { allfacts := ∅, findexes := [⟨id, FactIndex.empty ℤ ℤ⟩] }

/-- Concrete fact map for instantiating the delete round trip: integer
facts `1` and `5` indexed by their own value. -/
def fmC4 : FactMap ℤ ℤ := (fmIntW.add 1).add 5

/-- Concrete where-bound select for the delete round trip: where-clause
`0 < f`, indexable pre-filter `value > 2` through index `0`, no ordering. -/
def selC4 : Sel ℤ ℤ Unit :=
  { whereFn := some (fun f _ => decide (0 < f)),
    indexable := some (0, CompOp.gt, fun _ => 2),
    sortCmp := none }

/-- `FieldOrderBy`: the field evaluator of the ordered path together with
the ascending flag. -/
structure FieldOrderBy (Fact κ : Type) where
  fpeval : Fact → κ
  asc : Bool

/-- `FieldOrderBy.compare`: `0` on equal field values, `-1` when the
requested direction (ascending or descending) puts `a` before `b`, else
`1`. -/
def FieldOrderBy.compare {Fact κ : Type} [LinearOrder κ] (o : FieldOrderBy Fact κ)
    (a b : Fact) : Int :=
  let va := o.fpeval a
  let vb := o.fpeval b
  if va = vb then 0
  else if o.asc = true ∧ va < vb then -1
  else if o.asc = false ∧ vb < va then -1
  else 1

/-- The composite comparator `mycmp` built by `_Select.order_by`: walk the
field orders and return the first nonzero comparison, else `0` (the first
differing key decides). -/
def myCmp {Fact κ : Type} [LinearOrder κ] (fos : List (FieldOrderBy Fact κ))
    (a b : Fact) : Int :=
  match fos with
  | [] => 0
  | o :: rest =>
    let value := o.compare a b
    if value = 0 then myCmp rest a b else value

/-- The tuple of ordering-key values of a record (two records tie under
`mycmp` exactly when their key tuples agree). -/
def keyTuple {Fact κ : Type} (fos : List (FieldOrderBy Fact κ)) (a : Fact) : List κ :=
  fos.map (fun o => o.fpeval a)

/-- Concrete single-key ascending ordering on integer pairs (order by the
first component), used by the sorting witnesses. -/
def foFstAsc : FieldOrderBy (ℤ × ℤ) ℤ := { fpeval := Prod.fst, asc := true }

/-- `_FieldPathEval` as seen by condition trees: the canonical spec of the
field path (a hashable identifier, embedded as a number) plus the
evaluator. -/
structure FPEval (Fact κ : Type) where
  spec : Nat
  eval : Fact → κ

/-- The second argument of a `FieldQueryComparator`: another field path
evaluator, a plain value, or a positional/named placeholder. -/
inductive FQArg (Fact κ : Type) where
  | fpe : FPEval Fact κ → FQArg Fact κ
  | val : κ → FQArg Fact κ
  | pos : Nat → FQArg Fact κ
  | named : String → FQArg Fact κ

/-- A placeholder binding: the positional and keyword arguments of a query
execution (assumed to cover the placeholders used; missing-argument errors
are the separate `_resolve_arguments` concern). -/
structure Binding (κ : Type) where
  args : Nat → κ
  kwargs : String → κ

/-- Condition tree over one record type: `StaticComparator`,
`FieldQueryComparator` (operator, left field path, right argument), and
`BoolComparator` nodes (`not` with its single argument and `and`/`or`
with their argument lists, the arities the constructor validates). -/
inductive FComp (Fact κ : Type) where
  | static : Bool → FComp Fact κ
  | fq : CompOp → FPEval Fact κ → FQArg Fact κ → FComp Fact κ
  | bnot : FComp Fact κ → FComp Fact κ
  | band : List (FComp Fact κ) → FComp Fact κ
  | bor : List (FComp Fact κ) → FComp Fact κ

/-- `FieldQueryComparator._static` as computed in `__init__`: the
comparison is trivial when the right side is a field path with the same
canonical spec (`arg1 is arg2`, the other trigger, implies equal specs). -/
def fqStatic {Fact κ : Type} (arg1 : FPEval Fact κ) (arg2 : FQArg Fact κ) : Bool :=
  match arg2 with
  | .fpe e2 => arg1.spec = e2.spec
  | _ => false

/-- `self._value = compop(1,1)`: the static value of a trivial comparison. -/
def CompOp.onEqualArgs : CompOp → Bool
  | .eq => true
  | .ne => false
  | .lt => false
  | .le => true
  | .gt => false
  | .ge => true

/-- `getargval` inside `FieldQueryComparator.__call__`: field paths are
evaluated on the fact, placeholders are resolved against the binding,
anything else is a plain value. -/
def FQArg.resolve {Fact κ : Type} (arg : FQArg Fact κ) (fact : Fact)
    (b : Binding κ) : κ :=
  match arg with
  | .fpe e => e.eval fact
  | .val v => v
  | .pos n => b.args n
  | .named s => b.kwargs s

mutual
/-- `__call__` of the comparator classes: a static comparator returns its
value, a field comparison returns its static value when trivial and
otherwise compares the evaluated sides, and boolean nodes short-circuit
over their arguments.  The operands here are of one simple field type, so
the complex-term conversion branch (C10) does not trigger. -/
def FComp.call {Fact κ : Type} [LinearOrder κ] : FComp Fact κ → Fact → Binding κ → Bool
  | .static v, _, _ => v
  | .fq op a1 a2, fact, b =>
    if fqStatic a1 a2 then op.onEqualArgs
    else op.apply (a1.eval fact) (a2.resolve fact b)
  | .bnot c, fact, b => ! c.call fact b
  | .band cs, fact, b => FComp.callAll cs fact b
  | .bor cs, fact, b => FComp.callAny cs fact b

/-- The short-circuiting `and` loop of `BoolComparator.__call__`. -/
def FComp.callAll {Fact κ : Type} [LinearOrder κ] :
    List (FComp Fact κ) → Fact → Binding κ → Bool
  | [], _, _ => true
  | c :: rest, fact, b => c.call fact b && FComp.callAll rest fact b

/-- The short-circuiting `or` loop of `BoolComparator.__call__`. -/
def FComp.callAny {Fact κ : Type} [LinearOrder κ] :
    List (FComp Fact κ) → Fact → Binding κ → Bool
  | [], _, _ => false
  | c :: rest, fact, b => c.call fact b || FComp.callAny rest fact b
end

mutual
/-- `_simplify_fact_comparator` composed with `simplified()`: a static
comparator is returned unchanged (its `simpified` typo raises
`AttributeError`, swallowed by the bare `except`), a field comparison
folds to its static value when trivial, `not` of a statically-decided
argument folds to the negated constant, and an `and`/`or` node simplifies
its arguments and then collapses the empty and singleton argument lists.
Statically-decided arguments of `and`/`or` are always dropped from the
argument list: the would-be short-circuit returns
(`if self._boolop == operator.and_ and not sarg.value: sarg` and the `or`
twin) are expression statements with no effect. -/
def FComp.simplified {Fact κ : Type} : FComp Fact κ → FComp Fact κ
  | .static v => .static v
  | .fq op a1 a2 => if fqStatic a1 a2 then .static op.onEqualArgs else .fq op a1 a2
  | .bnot c =>
    match FComp.simplified c with
    | .static v => .static (!v)
    | sc => .bnot sc
  | .band cs =>
    match FComp.simplifyArgs cs with
    | [] => .static true
    | [single] => single
    | newargs => .band newargs
  | .bor cs =>
    match FComp.simplifyArgs cs with
    | [] => .static false
    | [single] => single
    | newargs => .bor newargs

/-- The argument loop of `BoolComparator.simplified` for `and`/`or`
nodes: simplify each argument, drop the statically-decided ones, keep the
rest. -/
def FComp.simplifyArgs {Fact κ : Type} :
    List (FComp Fact κ) → List (FComp Fact κ)
  | [] => []
  | c :: rest =>
    match FComp.simplified c with
    | .static _ => FComp.simplifyArgs rest
    | sc => sc :: FComp.simplifyArgs rest
end

/-- `FieldQueryComparator.indexable()`: `None` on a trivial comparison or
when the right side is itself a field path, else the
`(path, operator, value)` triple; non-comparison nodes have no
`indexable` (only `_primary_search`'s `isinstance` checks reach it). -/
def FComp.indexable {Fact κ : Type} :
    FComp Fact κ → Option (FPEval Fact κ × CompOp × FQArg Fact κ)
  | .fq op a1 a2 =>
    if fqStatic a1 a2 then none
    else
      match a2 with
      | .fpe _ => none
      | _ => some (a1, op, a2)
  | _ => none

/-- An indexable candidate: the `(path, operator, value)` triple returned
by `indexable()`. -/
abbrev IxCand (Fact κ : Type) := FPEval Fact κ × CompOp × FQArg Fact κ

/-- The priority value of a candidate: the position of its spec in the
fact map's index list, which `_Select.__init__` enumerates in declaration
order into `_index_priority`. -/
def prio {Fact κ : Type} (indexes : List Nat) (t : IxCand Fact κ) : Nat :=
  indexes.indexOf t.1.spec

/-- `validate_indexable` inside `_Select._primary_search`: reject a
candidate whose spec has no declared index (`indexes` is the fact map's
index list in declaration order; `_index_priority` maps each spec to its
position there). -/
def validateIndexable {Fact κ : Type} (indexes : List Nat)
    (ix : Option (IxCand Fact κ)) : Option (IxCand Fact κ) :=
  match ix with
  | none => none
  | some t => if t.1.spec ∈ indexes then some t else none

/-- The body of one iteration of the `_primary_search` loop over an `and`
node's arguments: adopt the sub-result when there is no candidate yet or
when it strictly improves the priority value. -/
def psCombine {Fact κ : Type} (indexes : List Nat)
    (acc tmp : Option (IxCand Fact κ)) : Option (IxCand Fact κ) :=
  match tmp with
  | none => acc
  | some t =>
    match acc with
    | none => some t
    | some cur =>
      if indexes.indexOf t.1.spec < indexes.indexOf cur.1.spec then some t
      else some cur

mutual
/-- `_Select._primary_search`: a field comparison contributes its
validated indexable; an `and` node folds over its arguments keeping the
candidate of lowest priority value (earliest declared index), the first
one found winning ties; every other node yields nothing. -/
def primarySearch {Fact κ : Type} (indexes : List Nat) :
    FComp Fact κ → Option (IxCand Fact κ)
  | .fq op a1 a2 => validateIndexable indexes (FComp.indexable (.fq op a1 a2))
  | .band cs => primarySearchArgs indexes cs none
  | _ => none

/-- The `for arg in where.args` loop of `_primary_search` with its
`indexable` accumulator. -/
def primarySearchArgs {Fact κ : Type} (indexes : List Nat) :
    List (FComp Fact κ) → Option (IxCand Fact κ) → Option (IxCand Fact κ)
  | [], acc => acc
  | c :: rest, acc =>
    primarySearchArgs indexes rest (psCombine indexes acc (primarySearch indexes c))
end

mutual
/-- Modelled from the claim's words: the eligible indexable leaf
comparisons of a condition, collected recursively through the `and`
structure in traversal order. -/
def conjunctCandidates {Fact κ : Type} (indexes : List Nat) :
    FComp Fact κ → List (IxCand Fact κ)
  | .fq op a1 a2 => (validateIndexable indexes (FComp.indexable (.fq op a1 a2))).toList
  | .band cs => conjunctCandidatesList indexes cs
  | _ => []

def conjunctCandidatesList {Fact κ : Type} (indexes : List Nat) :
    List (FComp Fact κ) → List (IxCand Fact κ)
  | [] => []
  | c :: rest => conjunctCandidates indexes c ++ conjunctCandidatesList indexes rest
end

/-- One step of the priority fold: keep the accumulator unless the new
candidate has strictly lower priority value (earlier declared index). -/
def prioStep {Fact κ : Type} (indexes : List Nat)
    (acc : Option (IxCand Fact κ)) (t : IxCand Fact κ) :
    Option (IxCand Fact κ) :=
  match acc with
  | none => some t
  | some cur =>
    if indexes.indexOf t.1.spec < indexes.indexOf cur.1.spec then some t
    else some cur

/-- The first candidate attaining the minimal priority value, computed as
a left fold with strict improvement. -/
def leftMin {Fact κ : Type} (indexes : List Nat)
    (l : List (IxCand Fact κ)) : Option (IxCand Fact κ) :=
  l.foldl (prioStep indexes) none

/-- Trivial integer binding for concrete condition-tree evaluations. -/
def bIntTrivial : Binding ℤ := { args := fun _ => 0, kwargs := fun _ => 0 }

/-- A field path evaluator on integer facts (spec `0`, the fact itself). -/
def fpeInt : FPEval ℤ ℤ := { spec := 0, eval := id }

/-- Concrete condition tree for the simplification divergence: the
conjunction of the trivially-false comparison `path0 != path0` and the
comparison `path0 == 5`. -/
def c3exC : FComp ℤ ℤ :=
  .band [.fq .ne fpeInt (.fpe fpeInt), .fq .eq fpeInt (.val 5)]

/-- The counting loop of the old API's `_Select.get_unique`: each result
is stored and counted, and the second result raises `ValueError`
immediately. -/
def getUniqueLoop {α : Type} (count : Nat) (fact : Option α) :
    List α → Except PyErr (Nat × Option α)
  | [] => .ok (count, fact)
  | f :: rest =>
    if count + 1 > 1 then .error .valueError
    else getUniqueLoop (count + 1) (some f) rest

/-- `_Select.get_unique` of the old API: run the counting loop over the
results of `get`, raise `ValueError` when the count is zero, otherwise
return the accumulated fact (an `Optional`, populated whenever the count
is nonzero). -/
def getUniqueImpl {α : Type} (l : List α) : Except PyErr (Option α) :=
  match getUniqueLoop 0 none l with
  | .error e => .error e
  | .ok (count, fact) => if count = 0 then .error .valueError else .ok fact

/-- Python truthiness of an optional scan variable: `None` is falsy, an
element is as truthy as its `__bool__` says. -/
def foundTruthy {α : Type} (truthy : α → Bool) : Option α → Bool
  | none => false
  | some a => truthy a

/-- The scan loop shared by `QueryImpl.singleton` and the new API's
`SelectImpl.get_unique`: `found = None; for out in ...: if found: raise
ValueError; found = out`, so an element raises only when a truthy
element was seen before it, and each element overwrites `found`. -/
def singletonLoop {α : Type} (truthy : α → Bool) (found : Option α) :
    List α → Except PyErr (Option α)
  | [] => .ok found
  | out :: rest =>
    if foundTruthy truthy found then .error .valueError
    else singletonLoop truthy (some out) rest

/-- `QueryImpl.singleton` / new-API `SelectImpl.get_unique`: run the scan
loop and return `found` — which is `None` when the query produced no
results. -/
def singletonImpl {α : Type} (truthy : α → Bool) (l : List α) :
    Except PyErr (Option α) :=
  singletonLoop truthy none l

/-- The local names bound in the body of `FactBase._remove`: its
parameters (and `self`), plus the `ptype` assignment; the guard's name
`arg` is not among them. -/
def removeLocals : List String := ["self", "fact", "raise_on_missing", "ptype"]

/-- Python name resolution: evaluating a name bound in no enclosing scope
raises `NameError`. -/
def lookupName (locals : List String) (n : String) : Except PyErr Unit :=
  if n ∈ locals then .ok () else .error .nameError

/-- `FactBase._remove` (the same body in `orm.py` and `factbase.py`): the
guard `if not isinstance(arg, Predicate) or ptype not in self._factmaps`
evaluates the name `arg` first, and the scope binds only `self`, `fact`,
`raise_on_missing` and `ptype`; whatever the rest of the body would do
with the fact map (taken here as an arbitrary continuation `rest`), it is
only reached after that lookup succeeds. -/
def factBase_remove (fm : FactMap κ Fact) (fact : Fact) (raiseOnMissing : Bool)
    (rest : FactMap κ Fact → Fact → Bool → Except PyErr (FactMap κ Fact)) :
    Except PyErr (FactMap κ Fact) :=
  match lookupName removeLocals "arg" with
  | .error e => .error e
  | .ok _ => rest fm fact raiseOnMissing

/-- A fact base as its `_factmaps` dictionary: the list of predicate
types that have an entry, and per type that entry's fact set (`none`
for types with no entry). -/
structure FB (P Fact : Type) where
  keys : List P
  maps : P → Option (Finset Fact)

/-- Dictionary subscript `d[p]`: a missing key raises `KeyError`. -/
def dictGet {P Fact : Type} (m : P → Option (Finset Fact)) (p : P) :
    Except PyErr (Finset Fact) :=
  match m p with
  | some s => .ok s
  | none => .error .keyError

/-- One iteration of the `FactBase.symmetric_difference` loop for
predicate `p`: when both operands have an entry their per-type symmetric
difference (the per-type operation lives in the missing
`factcontainers.py`; modelled from the spec: the facts in exactly one of
the two fact sets); otherwise the entry written last is unconditionally
`other._factmaps[p]` — the copy of `self`'s entry made just before is
immediately overwritten — and that subscript raises `KeyError` when only
`self` has the type. -/
def symDiffEntry {P Fact : Type} [DecidableEq Fact] (a b : FB P Fact) (p : P) :
    Except PyErr (Finset Fact) :=
  match a.maps p, b.maps p with
  | some sa, some sb => .ok ((sa \ sb) ∪ (sb \ sa))
  | _, _ => dictGet b.maps p

/-- The `for p in predicates` loop of `symmetric_difference`, filling the
result dictionary entry by entry; the first raising entry aborts the
call. -/
def symDiffLoop {P Fact : Type} [DecidableEq P] [DecidableEq Fact] (a b : FB P Fact) :
    List P → (P → Option (Finset Fact)) → Except PyErr (P → Option (Finset Fact))
  | [], acc => .ok acc
  | p :: rest, acc =>
    match symDiffEntry a b p with
    | .error e => .error e
    | .ok s => symDiffLoop a b rest (fun q => if q = p then some s else acc q)

/-- `FactBase.symmetric_difference`: iterate the union of both key sets
(`predicates = set(self); predicates.update(other)`), building the result
dictionary. -/
def symmetricDifference {P Fact : Type} [DecidableEq P] [DecidableEq Fact]
    (a b : FB P Fact) : Except PyErr (P → Option (Finset Fact)) :=
  symDiffLoop a b ((a.keys ++ b.keys).dedup) (fun _ => none)

/-- Fact base with the single fact `1` of predicate type `0`. -/
def fbA : FB ℕ ℤ :=
  { keys := [0], maps := fun p => if p = 0 then some {1} else none }

/-- The empty fact base. -/
def fbB : FB ℕ ℤ := { keys := [], maps := fun _ => none }

/-- A resolved comparison operand: a simple field value, a plain Python
tuple of simple values, or a complex term (predicate class name plus
argument values). -/
inductive PyV (κ : Type) where
  | simple : κ → PyV κ
  | tup : List κ → PyV κ
  | cplx : String → List κ → PyV κ

/-- Python `type(v1) == type(v2)` on operand shapes: simple values share
a type, tuples share a type, and complex terms share a type exactly when
they are instances of the same predicate class (identified here by its
name). -/
def PyV.sameType {κ : Type} : PyV κ → PyV κ → Bool
  | .simple _, .simple _ => true
  | .tup _, .tup _ => true
  | .cplx n1 _, .cplx n2 _ => decide (n1 = n2)
  | _, _ => false

/-- Lexicographic strict order on value lists: `<` on Python tuples, and
the first-differing-field loop of `NonLogicalSymbol.__lt__`/`__gt__`
(there both lists have the class's arity). -/
def lexLt {κ : Type} [LinearOrder κ] : List κ → List κ → Bool
  | [], [] => false
  | [], _ :: _ => true
  | _ :: _, [] => false
  | a :: as, b :: bs => if a < b then true else if b < a then false else lexLt as bs

/-- `compop(v1, v2)` on resolved operands: same-shape operands compare by
value (simple values by their order; tuples lexicographically; complex
terms within one predicate class by `raw` equality for `==`/`!=` and the
fieldwise loop for the order operators, `NotImplemented` across classes);
operands of unrelated types are `==`-comparable (`False`, so `!=` is
`True`) but order-incomparable, which Python surfaces as `TypeError`. -/
def pyvApply {κ : Type} [LinearOrder κ] : CompOp → PyV κ → PyV κ → Except PyErr Bool
  | op, .simple a, .simple b => .ok (op.apply a b)
  | op, .tup a, .tup b =>
    match op with
    | .eq => .ok (decide (a = b))
    | .ne => .ok (!decide (a = b))
    | .lt => .ok (lexLt a b)
    | .le => .ok (!lexLt b a)
    | .gt => .ok (lexLt b a)
    | .ge => .ok (!lexLt a b)
  | op, .cplx n1 a1, .cplx n2 a2 =>
    if n1 = n2 then
      match op with
      | .eq => .ok (decide (a1 = a2))
      | .ne => .ok (!decide (a1 = a2))
      | .lt => .ok (lexLt a1 a2)
      | .le => .ok (!lexLt a2 a1)
      | .gt => .ok (lexLt a2 a1)
      | .ge => .ok (!lexLt a1 a2)
    else
      match op with
      | .eq => .ok false
      | .ne => .ok true
      | _ => .error .typeError
  | op, _, _ =>
    match op with
    | .eq => .ok false
    | .ne => .ok true
    | _ => .error .typeError

/-- `type(v1)(*v2)` in a scope where `v1` is a complex term of class
`name` with arity `arity`: positional construction from the unpacked
value; a plain tuple of the wrong length raises `ValueError`
(`"Expected {} arguments but {} given"`), a non-sequence value fails to
unpack with `TypeError`, and the tuple's elements are already simple
field values so field preprocessing accepts them. -/
def tryConvert {κ : Type} (name : String) (arity : Nat) : PyV κ → Except PyErr (PyV κ)
  | .tup tv => if tv.length = arity then .ok (.cplx name tv) else .error .valueError
  | _ => .error .typeError

/-- The value-comparison core of `FieldQueryComparator.__call__` after
argument resolution: when the operand types differ and the left value is
a complex term, a right complex term of a different predicate name
raises `TypeError`; otherwise the right value is converted to the left's
class inside `try/except`, any failure re-raised as `TypeError`; finally
the operator is applied to the two values. -/
def fqCallCore {κ : Type} [LinearOrder κ] (op : CompOp) (v1 v2 : PyV κ) :
    Except PyErr Bool :=
  if v1.sameType v2 then pyvApply op v1 v2
  else
    match v1 with
    | .cplx n a1 =>
      (match v2 with
       | .cplx n2 a2 =>
         if n ≠ n2 then .error .typeError
         else pyvApply op (.cplx n a1) (.cplx n2 a2)
       | _ =>
         match tryConvert n a1.length v2 with
         | .ok v2' => pyvApply op (.cplx n a1) v2'
         | .error _ => .error .typeError)
    | _ => pyvApply op v1 v2

/-- The index-path value preparation of `_Select.get`: when the indexed
field's declared type is a complex-term class (`cmplx = fp.defn.complex`)
and the resolved right-hand value is a plain tuple, the value is replaced
by `cmplx(*value)` with no `try/except` around it; every other value
passes through unconverted. -/
def indexValuePrep {κ : Type} (cmplx : Option (String × Nat)) (value : PyV κ) :
    Except PyErr (PyV κ) :=
  match cmplx, value with
  | some (n, ar), .tup tv =>
    if tv.length = ar then .ok (.cplx n tv) else .error .valueError
  | _, _ => .ok value

end Clorm

/-! ## Theorems -/

namespace Clorm

variable {κ Fact : Type} [LinearOrder κ] [DecidableEq Fact]

/-- C1: the claim states that for every indexed field path, comparison
operator and key value, `_FactIndex.find` returns the same record set as a
full scan filtered by the same comparison.  It fails: with the single
fact `5` indexed by its own value, `find(operator.gt, 3)` returns the
empty set (`_keys_gt` returns `[]` whenever `bisect_right` is `0`, i.e.
whenever the query key is below every indexed key), while the full scan
returns `{5}`. -/
theorem find_diverges_from_scan_on_gt :
    ((FactIndex.empty ℤ ℤ).add id 5).find .gt 3 ≠
        scanFind ({5} : Finset ℤ) id .gt 3 ∧
      ((FactIndex.empty ℤ ℤ).add id 5).find .gt 3 = ∅ ∧
      scanFind ({5} : Finset ℤ) id .gt 3 = {5} := by
  refine ⟨?_, ?_, ?_⟩ <;> decide

theorem insertIdx_length_append {α : Type} (l₁ l₂ : List α) (a : α) :
    (l₁ ++ l₂).insertIdx l₁.length a = l₁ ++ a :: l₂ := by
  induction l₁ with
  | nil => rfl
  | cons b t ih =>
    show (b :: (t ++ l₂)).insertIdx (t.length + 1) a = b :: (t ++ a :: l₂)
    rw [List.insertIdx_succ_cons, ih]

theorem eraseIdx_length_append {α : Type} (l₁ l₂ : List α) :
    (l₁ ++ l₂).eraseIdx l₁.length = l₁ ++ l₂.tail := by
  induction l₁ with
  | nil => cases l₂ <;> rfl
  | cons b t ih =>
    show (b :: (t ++ l₂)).eraseIdx (t.length + 1) = b :: (t ++ l₂.tail)
    rw [List.eraseIdx_cons_succ, ih]

/-- On a strictly sorted list, a downward-closed predicate's `takeWhile`
prefix holds exactly the members satisfying it. -/
theorem mem_takeWhile_sorted {p : κ → Bool} (hp : ∀ x y : κ, x ≤ y → p y = true → p x = true)
    {l : List κ} (hs : l.Sorted (· < ·)) {x : κ} :
    x ∈ l.takeWhile p ↔ x ∈ l ∧ p x = true := by
  induction l with
  | nil => simp
  | cons a t ih =>
    rw [List.sorted_cons] at hs
    by_cases hpa : p a = true
    · rw [List.takeWhile_cons_of_pos hpa]
      simp only [List.mem_cons, ih hs.2]
      constructor
      · rintro (rfl | ⟨hx, hpx⟩)
        exacts [⟨Or.inl rfl, hpa⟩, ⟨Or.inr hx, hpx⟩]
      · rintro ⟨(rfl | hx), hpx⟩
        exacts [Or.inl rfl, Or.inr ⟨hx, hpx⟩]
    · rw [List.takeWhile_cons_of_neg hpa]
      simp only [List.not_mem_nil, false_iff, not_and]
      intro hmem
      rcases List.mem_cons.mp hmem with h | hx
      · subst h
        exact fun hpx => hpa hpx
      · exact fun hpx => hpa (hp a x (le_of_lt (hs.1 x hx)) hpx)

/-- On a strictly sorted list, a downward-closed predicate's `dropWhile`
suffix holds exactly the members violating it. -/
theorem mem_dropWhile_sorted {p : κ → Bool} (hp : ∀ x y : κ, x ≤ y → p y = true → p x = true)
    {l : List κ} (hs : l.Sorted (· < ·)) {x : κ} :
    x ∈ l.dropWhile p ↔ x ∈ l ∧ ¬ p x = true := by
  induction l with
  | nil => simp
  | cons a t ih =>
    rw [List.sorted_cons] at hs
    by_cases hpa : p a = true
    · rw [List.dropWhile_cons_of_pos hpa]
      rw [ih hs.2]
      simp only [List.mem_cons]
      constructor
      · rintro ⟨hx, hpx⟩
        exact ⟨Or.inr hx, hpx⟩
      · rintro ⟨(rfl | hx), hpx⟩
        · exact absurd hpa hpx
        · exact ⟨hx, hpx⟩
    · rw [List.dropWhile_cons_of_neg hpa]
      simp only [List.mem_cons]
      constructor
      · rintro (rfl | hx)
        · exact ⟨Or.inl rfl, hpa⟩
        · refine ⟨Or.inr hx, fun hpx => hpa (hp a x (le_of_lt (hs.1 x hx)) hpx)⟩
      · rintro ⟨hx, _⟩
        exact hx

/-- On a strictly sorted list, a downward-closed predicate's `takeWhile`
prefix is nonempty exactly when some member satisfies the predicate. -/
theorem takeWhile_ne_nil_sorted {p : κ → Bool} (hp : ∀ x y : κ, x ≤ y → p y = true → p x = true)
    {l : List κ} (hs : l.Sorted (· < ·)) :
    l.takeWhile p ≠ [] ↔ ∃ x ∈ l, p x = true := by
  constructor
  · intro h
    obtain ⟨x, hx⟩ := List.exists_mem_of_ne_nil _ h
    obtain ⟨h1, h2⟩ := (mem_takeWhile_sorted hp hs).mp hx
    exact ⟨x, h1, h2⟩
  · rintro ⟨x, hx, hpx⟩ h
    have := (mem_takeWhile_sorted hp hs).mpr ⟨hx, hpx⟩
    rw [h] at this
    exact List.not_mem_nil x this

theorem getElem?_length_append {α : Type} (l₁ : List α) (d : α) (l₂ : List α) :
    (l₁ ++ d :: l₂)[l₁.length]? = some d := by
  induction l₁ with
  | nil => simp
  | cons b t ih => simpa using ih

theorem takeWhile_of_all {α : Type} {p : α → Bool} {T : List α}
    (hT : ∀ x ∈ T, p x = true) : T.takeWhile p = T := by
  induction T with
  | nil => rfl
  | cons b t ih =>
    rw [List.takeWhile_cons_of_pos (hT b (List.mem_cons_self b t))]
    rw [ih (fun x hx => hT x (List.mem_cons_of_mem b hx))]

theorem takeWhile_append_cons {α : Type} {p : α → Bool} {T : List α} {d : α}
    (R : List α) (hT : ∀ x ∈ T, p x = true) (hd : p d = false) :
    (T ++ d :: R).takeWhile p = T := by
  induction T with
  | nil => simp [List.takeWhile_cons, hd]
  | cons b t ih =>
    rw [List.cons_append,
      List.takeWhile_cons_of_pos (hT b (List.mem_cons_self b t))]
    rw [ih (fun x hx => hT x (List.mem_cons_of_mem b hx))]

/-- Both branches of `_FactIndex.add` perform the same bucket update. -/
theorem add_key2values (keyOf : Fact → κ) (s : FactIndex κ Fact) (fact : Fact) (k : κ) :
    (s.add keyOf fact).key2values k =
      if k = keyOf fact then insert fact (s.key2values k) else s.key2values k := by
  unfold FactIndex.add
  dsimp only
  split <;> rfl

theorem bucketInv_add {keyOf : Fact → κ} {facts : Finset Fact} {s : FactIndex κ Fact}
    (h : s.bucketInv keyOf facts) (fact : Fact) :
    (s.add keyOf fact).bucketInv keyOf (insert fact facts) := by
  intro k
  rw [add_key2values, h k, Finset.filter_insert]
  by_cases hk : keyOf fact = k
  · rw [if_pos hk, if_pos hk.symm]
  · rw [if_neg hk, if_neg (fun hkk => hk hkk.symm)]

/-- The effect of `_FactIndex.add` on the sorted keylist: unchanged when
the key is already present, otherwise the key is inserted at its sorted
position. -/
theorem add_keylist {keyOf : Fact → κ} (s : FactIndex κ Fact) (fact : Fact)
    (hs : s.keylist.Sorted (· < ·)) :
    (s.add keyOf fact).keylist =
      if keyOf fact ∈ s.keylist then s.keylist
      else s.keylist.takeWhile (fun x => x < keyOf fact) ++
        keyOf fact :: s.keylist.dropWhile (fun x => x < keyOf fact) := by
  have hdc : ∀ x y : κ, x ≤ y → decide (y < keyOf fact) = true →
      decide (x < keyOf fact) = true := by
    intro x y hxy hy
    simp only [decide_eq_true_eq] at hy ⊢
    exact lt_of_le_of_lt hxy hy
  have hsplit := List.takeWhile_append_dropWhile
    (p := fun x => decide (x < keyOf fact)) (l := s.keylist)
  have hTlt : ∀ x ∈ s.keylist.takeWhile (fun x => x < keyOf fact), x < keyOf fact := by
    intro x hx
    have := (mem_takeWhile_sorted hdc hs).mp hx
    simpa using this.2
  rcases hdw : s.keylist.dropWhile (fun x => x < keyOf fact) with _ | ⟨d, rest⟩
  · -- the suffix is empty: the key is greater than every key in the list
    have hl : s.keylist = s.keylist.takeWhile (fun x => x < keyOf fact) := by
      conv_lhs => rw [← hsplit, hdw]
      rw [List.append_nil]
    unfold FactIndex.add
    dsimp only
    revert hTlt hl
    generalize s.keylist.takeWhile (fun x => x < keyOf fact) = T
    intro hTlt hl
    rw [hl]
    have hpos : bisectLeft T (keyOf fact) = T.length := by
      rw [bisectLeft, takeWhile_of_all (fun x hx => by simpa using hTlt x hx)]
    have hnotmem : keyOf fact ∉ T := fun hmem => lt_irrefl _ (hTlt _ hmem)
    have hcond : T[bisectLeft T (keyOf fact)]? = none := by
      rw [hpos]
      exact List.getElem?_eq_none (le_refl T.length)
    rw [if_neg (by rw [hcond]; simp), if_neg hnotmem, hpos]
    have h2 := insertIdx_length_append T [] (keyOf fact)
    rw [List.append_nil] at h2
    rw [h2]
  · -- the suffix starts with d, the first key not below the query key
    have hd : ¬ d < keyOf fact := by
      have hdmem : d ∈ s.keylist.dropWhile (fun x => x < keyOf fact) := by
        rw [hdw]
        exact List.mem_cons_self d rest
      have := (mem_dropWhile_sorted hdc hs).mp hdmem
      simpa using this.2
    have hdsorted : (d :: rest).Sorted (· < ·) := by
      have hsub : List.Sublist (d :: rest) s.keylist := by
        rw [← hdw]
        exact (List.dropWhile_suffix _).sublist
      exact hs.sublist hsub
    have hl : s.keylist = s.keylist.takeWhile (fun x => x < keyOf fact) ++
        d :: rest := by
      conv_lhs => rw [← hsplit, hdw]
    unfold FactIndex.add
    dsimp only
    revert hTlt hl
    generalize s.keylist.takeWhile (fun x => x < keyOf fact) = T
    intro hTlt hl
    rw [hl]
    have hpos : bisectLeft (T ++ d :: rest) (keyOf fact) = T.length := by
      rw [bisectLeft, takeWhile_append_cons rest
        (fun x hx => by simpa using hTlt x hx) (by simpa using hd)]
    have hq : (T ++ d :: rest)[bisectLeft (T ++ d :: rest) (keyOf fact)]? = some d := by
      rw [hpos]
      exact getElem?_length_append T d rest
    by_cases hdk : d = keyOf fact
    · -- the key is already in the list
      have hmem : keyOf fact ∈ T ++ d :: rest := by
        rw [← hdk]
        exact List.mem_append_right _ (List.mem_cons_self d rest)
      rw [if_pos (by rw [hq, hdk]), if_pos hmem]
    · -- the key is absent: it is inserted before d
      have hnotmem : keyOf fact ∉ T ++ d :: rest := by
        intro hmem
        rcases List.mem_append.mp hmem with h1 | h2
        · exact lt_irrefl _ (hTlt _ h1)
        · rcases List.mem_cons.mp h2 with h3 | h4
          · exact hdk h3.symm
          · have hdlt : d < keyOf fact := (List.sorted_cons.mp hdsorted).1 _ h4
            exact hd hdlt
      have hcond : ¬ ((T ++ d :: rest)[bisectLeft (T ++ d :: rest) (keyOf fact)]? =
          some (keyOf fact)) := by
        rw [hq]
        intro h
        exact hdk (Option.some.inj h)
      rw [if_neg hcond, if_neg hnotmem, hpos]
      exact insertIdx_length_append T (d :: rest) (keyOf fact)

theorem downclosed_lt (v : κ) : ∀ x y : κ, x ≤ y → decide (y < v) = true →
    decide (x < v) = true := by
  intro x y hxy hy
  simp only [decide_eq_true_eq] at hy ⊢
  exact lt_of_le_of_lt hxy hy

theorem downclosed_le (v : κ) : ∀ x y : κ, x ≤ y → decide (y ≤ v) = true →
    decide (x ≤ v) = true := by
  intro x y hxy hy
  simp only [decide_eq_true_eq] at hy ⊢
  exact le_trans hxy hy

theorem keyInv_add {keyOf : Fact → κ} {facts : Finset Fact} {s : FactIndex κ Fact}
    (h : s.keyInv keyOf facts) (fact : Fact) :
    (s.add keyOf fact).keyInv keyOf (insert fact facts) := by
  obtain ⟨hsorted, hmem⟩ := h
  rw [FactIndex.keyInv, add_keylist s fact hsorted]
  by_cases hk : keyOf fact ∈ s.keylist
  · rw [if_pos hk]
    refine ⟨hsorted, fun k => ?_⟩
    rw [hmem k, Finset.filter_insert]
    by_cases hkk : keyOf fact = k
    · rw [if_pos hkk]
      exact iff_of_true (hkk ▸ (hmem (keyOf fact)).mp hk) (Finset.insert_nonempty _ _)
    · rw [if_neg hkk]
  · rw [if_neg hk]
    have hTlt : ∀ x ∈ s.keylist.takeWhile (fun x => x < keyOf fact), x < keyOf fact := by
      intro x hx
      have := (mem_takeWhile_sorted (downclosed_lt (keyOf fact)) hsorted).mp hx
      simpa using this.2
    have hDgt : ∀ x ∈ s.keylist.dropWhile (fun x => x < keyOf fact), keyOf fact < x := by
      intro x hx
      have h1 := (mem_dropWhile_sorted (downclosed_lt (keyOf fact)) hsorted).mp hx
      have h2 : ¬ x < keyOf fact := by simpa using h1.2
      rcases lt_or_eq_of_le (le_of_not_lt h2) with h3 | h3
      · exact h3
      · exact absurd (h3 ▸ h1.1) hk
    have hT : ∀ x ∈ s.keylist.takeWhile (fun x => x < keyOf fact), x ∈ s.keylist :=
      fun x hx => ((mem_takeWhile_sorted (downclosed_lt (keyOf fact)) hsorted).mp hx).1
    have hD : ∀ x ∈ s.keylist.dropWhile (fun x => x < keyOf fact), x ∈ s.keylist :=
      fun x hx => ((mem_dropWhile_sorted (downclosed_lt (keyOf fact)) hsorted).mp hx).1
    constructor
    · rw [List.Sorted, List.pairwise_append]
      refine ⟨hsorted.sublist (List.takeWhile_prefix _).sublist, ?_, ?_⟩
      · rw [List.pairwise_cons]
        exact ⟨hDgt, hsorted.sublist (List.dropWhile_suffix _).sublist⟩
      · intro a ha b hb
        rcases List.mem_cons.mp hb with rfl | hb'
        · exact hTlt a ha
        · exact lt_trans (hTlt a ha) (hDgt b hb')
    · intro k
      rw [Finset.filter_insert]
      constructor
      · intro hkmem
        rcases List.mem_append.mp hkmem with h1 | h2
        · have hkl := hT k h1
          by_cases hkk : keyOf fact = k
          · rw [if_pos hkk]
            exact Finset.insert_nonempty _ _
          · rw [if_neg hkk]
            exact (hmem k).mp hkl
        · rcases List.mem_cons.mp h2 with rfl | h3
          · rw [if_pos rfl]
            exact Finset.insert_nonempty _ _
          · have hkl := hD k h3
            by_cases hkk : keyOf fact = k
            · rw [if_pos hkk]
              exact Finset.insert_nonempty _ _
            · rw [if_neg hkk]
              exact (hmem k).mp hkl
      · intro hne
        by_cases hkk : keyOf fact = k
        · subst hkk
          exact List.mem_append_right _ (List.mem_cons_self _ _)
        · rw [if_neg hkk] at hne
          have hkl := (hmem k).mpr hne
          have : k ∈ s.keylist.takeWhile (fun x => x < keyOf fact) ++
              s.keylist.dropWhile (fun x => x < keyOf fact) := by
            rw [List.takeWhile_append_dropWhile]
            exact hkl
          rcases List.mem_append.mp this with h1 | h2
          · exact List.mem_append_left _ h1
          · exact List.mem_append_right _ (List.mem_cons_of_mem _ h2)

/-- On a strictly sorted list containing the key, the `dropWhile` suffix
starts with the key itself. -/
theorem sorted_mem_dropWhile_eq_cons {l : List κ} (hs : l.Sorted (· < ·)) {key : κ}
    (hmem : key ∈ l) :
    ∃ R, l.dropWhile (fun x => x < key) = key :: R := by
  have hmemd : key ∈ l.dropWhile (fun x => x < key) :=
    (mem_dropWhile_sorted (downclosed_lt key) hs).mpr ⟨hmem, by simp⟩
  rcases hdw : l.dropWhile (fun x => x < key) with _ | ⟨h, R⟩
  · rw [hdw] at hmemd
    exact absurd hmemd (List.not_mem_nil key)
  · rw [hdw] at hmemd
    have hsortd : (h :: R).Sorted (· < ·) := by
      have hsub : List.Sublist (h :: R) l := by
        rw [← hdw]
        exact (List.dropWhile_suffix _).sublist
      exact hs.sublist hsub
    have hhge : ¬ h < key := by
      have := (mem_dropWhile_sorted (downclosed_lt key) hs).mp (by rw [hdw]; exact List.mem_cons_self h R)
      simpa using this.2
    rcases List.mem_cons.mp hmemd with rfl | hkR
    · exact ⟨R, rfl⟩
    · exact absurd ((List.sorted_cons.mp hsortd).1 key hkR) hhge

theorem filter_erase_other {keyOf : Fact → κ} (facts : Finset Fact) (f : Fact) {k : κ}
    (hne : ¬ keyOf f = k) :
    (facts.erase f).filter (fun x => keyOf x = k) =
      facts.filter (fun x => keyOf x = k) := by
  rw [Finset.filter_erase]
  apply Finset.erase_eq_of_not_mem
  intro hmem
  exact hne (Finset.mem_filter.mp hmem).2

/-- `_FactIndex.remove` succeeds whenever the record is present (or the
call is a discard) and restores both index invariants for the shrunken
fact set. -/
theorem factIndex_remove_sound {keyOf : Fact → κ} {facts : Finset Fact}
    {s : FactIndex κ Fact} (hb : s.bucketInv keyOf facts)
    (hk : s.keyInv keyOf facts) (f : Fact) (r : Bool)
    (hf : r = false ∨ f ∈ facts) :
    ∃ s', s.remove keyOf f r = .ok s' ∧
      s'.bucketInv keyOf (facts.erase f) ∧ s'.keyInv keyOf (facts.erase f) := by
  have hB := hb (keyOf f)
  by_cases hBe : s.key2values (keyOf f) = ∅
  · -- empty bucket: the record is not in the set, so this is a no-op discard
    have hfnot : f ∉ facts := by
      intro hfin
      have hfB : f ∈ s.key2values (keyOf f) := by
        rw [hB]
        exact Finset.mem_filter.mpr ⟨hfin, rfl⟩
      rw [hBe] at hfB
      exact absurd hfB (Finset.not_mem_empty f)
    have hr : r = false := by
      rcases hf with h | h
      · exact h
      · exact absurd h hfnot
    refine ⟨s, ?_, ?_, ?_⟩
    · unfold FactIndex.remove
      dsimp only
      rw [if_pos hBe, hr]
      rfl
    · rw [Finset.erase_eq_of_not_mem hfnot]
      exact hb
    · rw [Finset.erase_eq_of_not_mem hfnot]
      exact hk
  · -- nonempty bucket
    have hguard : ¬ (r = true ∧ f ∉ s.key2values (keyOf f)) := by
      rintro ⟨hr, hnot⟩
      rcases hf with h | h
      · rw [h] at hr
        exact Bool.false_ne_true hr
      · apply hnot
        rw [hB]
        exact Finset.mem_filter.mpr ⟨h, rfl⟩
    have hNVfilter : (s.key2values (keyOf f)).erase f =
        (facts.erase f).filter (fun x => keyOf x = keyOf f) := by
      rw [hB, Finset.filter_erase]
    by_cases hNVe : (s.key2values (keyOf f)).erase f = ∅
    · -- the bucket empties: drop the key from dictionary and keylist
      have hkeymem : keyOf f ∈ s.keylist := by
        apply (hk.2 (keyOf f)).mpr
        rw [← hB]
        exact Finset.nonempty_iff_ne_empty.mpr hBe
      obtain ⟨R, hdw⟩ := sorted_mem_dropWhile_eq_cons hk.1 hkeymem
      have hl : s.keylist = s.keylist.takeWhile (fun x => x < keyOf f) ++
          keyOf f :: R := by
        conv_lhs => rw [← List.takeWhile_append_dropWhile
          (p := fun x => decide (x < keyOf f)) (l := s.keylist), hdw]
      have hTlt : ∀ x ∈ s.keylist.takeWhile (fun x => x < keyOf f), x < keyOf f := by
        intro x hx
        have := (mem_takeWhile_sorted (downclosed_lt (keyOf f)) hk.1).mp hx
        simpa using this.2
      have hsortKR : (keyOf f :: R).Sorted (· < ·) := by
        have hsub : List.Sublist (keyOf f :: R) s.keylist := by
          rw [← hdw]
          exact (List.dropWhile_suffix _).sublist
        exact hk.1.sublist hsub
      have hRgt : ∀ x ∈ R, keyOf f < x := (List.sorted_cons.mp hsortKR).1
      have herase : s.keylist.eraseIdx (bisectLeft s.keylist (keyOf f)) =
          s.keylist.takeWhile (fun x => x < keyOf f) ++ R := by
        have h2 := eraseIdx_length_append
          (s.keylist.takeWhile (fun x => x < keyOf f)) (keyOf f :: R)
        have hpos2 : bisectLeft (s.keylist.takeWhile (fun x => x < keyOf f) ++
            keyOf f :: R) (keyOf f) =
            (s.keylist.takeWhile (fun x => x < keyOf f)).length := by
          rw [bisectLeft, takeWhile_append_cons R
            (fun x hx => by simpa using hTlt x hx) (by simp)]
        conv_lhs => rw [hl]
        rw [hpos2]
        simpa using h2
      refine ⟨{ keylist := s.keylist.eraseIdx (bisectLeft s.keylist (keyOf f)),
                key2values := fun k => if k = keyOf f then ∅ else s.key2values k },
              ?_, ?_, ?_⟩
      · unfold FactIndex.remove
        dsimp only
        rw [if_neg hBe, if_neg hguard, if_neg (by simpa using hNVe)]
      · intro k
        dsimp only
        by_cases hkk : k = keyOf f
        · rw [if_pos hkk, hkk, ← hNVfilter, hNVe]
        · rw [if_neg hkk, hb k,
            filter_erase_other facts f (fun h => hkk h.symm)]
      · constructor
        · dsimp only
          rw [herase]
          have hsub : List.Sublist
              (s.keylist.takeWhile (fun x => x < keyOf f) ++ R) s.keylist := by
            conv_rhs => rw [hl]
            exact List.Sublist.append_left (List.sublist_cons_self _ _) _
          exact hk.1.sublist hsub
        · intro k
          dsimp only
          rw [herase]
          by_cases hkk : k = keyOf f
          · subst hkk
            constructor
            · intro hmem
              rcases List.mem_append.mp hmem with h1 | h2
              · exact absurd rfl (ne_of_lt (hTlt _ h1))
              · exact absurd rfl (ne_of_gt (hRgt _ h2))
            · intro hne
              rw [← hNVfilter, hNVe] at hne
              exact absurd hne (by simp)
          · rw [filter_erase_other facts f (fun h => hkk h.symm), ← hk.2 k]
            constructor
            · intro hmem
              rcases List.mem_append.mp hmem with h1 | h2
              · rw [hl]
                exact List.mem_append_left _ h1
              · rw [hl]
                exact List.mem_append_right _ (List.mem_cons_of_mem _ h2)
            · intro hmem
              rw [hl] at hmem
              rcases List.mem_append.mp hmem with h1 | h2
              · exact List.mem_append_left _ h1
              · rcases List.mem_cons.mp h2 with h3 | h4
                · exact absurd h3 hkk
                · exact List.mem_append_right _ h4
    · -- the bucket stays nonempty: only the bucket is updated
      refine ⟨{ keylist := s.keylist,
                key2values := fun k => if k = keyOf f then
                  (s.key2values (keyOf f)).erase f else s.key2values k },
              ?_, ?_, ?_⟩
      · unfold FactIndex.remove
        dsimp only
        rw [if_neg hBe, if_neg hguard, if_pos (by simpa using hNVe)]
      · intro k
        dsimp only
        by_cases hkk : k = keyOf f
        · rw [if_pos hkk, hkk, ← hNVfilter]
        · rw [if_neg hkk, hb k,
            filter_erase_other facts f (fun h => hkk h.symm)]
      · constructor
        · exact hk.1
        · intro k
          dsimp only
          by_cases hkk : k = keyOf f
          · subst hkk
            rw [← hNVfilter]
            constructor
            · intro _
              exact Finset.nonempty_iff_ne_empty.mpr hNVe
            · intro _
              apply (hk.2 (keyOf f)).mpr
              rw [← hB]
              exact Finset.nonempty_iff_ne_empty.mpr hBe
          · rw [filter_erase_other facts f (fun h => hkk h.symm)]
            exact hk.2 k

theorem indexesRemove_sound {facts : Finset Fact} (f : Fact) (r : Bool)
    (es : List (IndexEntry κ Fact))
    (h : ∀ e ∈ es, e.idx.bucketInv e.keyOf facts ∧ e.idx.keyInv e.keyOf facts)
    (hf : r = false ∨ f ∈ facts) :
    (indexesRemove f r es).1 = .ok () ∧
    ∀ e' ∈ (indexesRemove f r es).2,
      e'.idx.bucketInv e'.keyOf (facts.erase f) ∧
      e'.idx.keyInv e'.keyOf (facts.erase f) := by
  induction es with
  | nil =>
    exact ⟨rfl, fun e' h' => absurd h' (List.not_mem_nil e')⟩
  | cons e rest ih =>
    obtain ⟨hbe, hke⟩ := h e (List.mem_cons_self e rest)
    obtain ⟨s', hok, hb', hk'⟩ := factIndex_remove_sound hbe hke f r hf
    have ihr := ih (fun e2 he2 => h e2 (List.mem_cons_of_mem e he2))
    simp only [indexesRemove, hok]
    refine ⟨ihr.1, ?_⟩
    intro e' he'
    rcases List.mem_cons.mp he' with rfl | h2
    · exact ⟨hb', hk'⟩
    · exact ihr.2 e' h2

theorem factMap_add_inv {fm : FactMap κ Fact} (h : fm.inv) (f : Fact) :
    (fm.add f).inv := by
  intro e' he'
  simp only [FactMap.add, List.mem_map] at he'
  obtain ⟨e, he, rfl⟩ := he'
  obtain ⟨hb, hk⟩ := h e he
  exact ⟨bucketInv_add hb f, keyInv_add hk f⟩

theorem factMap_remove_missing {fm : FactMap κ Fact} {f : Fact}
    (hnot : f ∉ fm.allfacts) :
    fm.remove f true = (.error .keyError, fm) := by
  rw [FactMap.remove, if_pos ⟨rfl, hnot⟩]

theorem factMap_remove_sound {fm : FactMap κ Fact} (h : fm.inv) (f : Fact) (r : Bool)
    (hf : r = false ∨ f ∈ fm.allfacts) :
    (fm.remove f r).1 = .ok () ∧
    (fm.remove f r).2.allfacts = fm.allfacts.erase f ∧
    (fm.remove f r).2.inv := by
  have hguard : ¬ (r = true ∧ f ∉ fm.allfacts) := by
    rintro ⟨hr, hnot⟩
    rcases hf with h1 | h1
    · rw [h1] at hr
      exact Bool.false_ne_true hr
    · exact hnot h1
  obtain ⟨hok, hinv'⟩ := indexesRemove_sound f r fm.findexes h hf
  rw [FactMap.remove, if_neg hguard]
  exact ⟨hok, rfl, fun e' he' => hinv' e' he'⟩

theorem factMap_remove_inv {fm : FactMap κ Fact} (h : fm.inv) (f : Fact) (r : Bool) :
    (fm.remove f r).2.inv := by
  by_cases hguard : r = true ∧ f ∉ fm.allfacts
  · rw [FactMap.remove, if_pos hguard]
    exact h
  · have hf : r = false ∨ f ∈ fm.allfacts := by
      by_cases hr : r = true
      · right
        by_contra hnot
        exact hguard ⟨hr, hnot⟩
      · left
        exact Bool.not_eq_true r ▸ Bool.of_not_eq_true hr
    exact (factMap_remove_sound h f r hf).2.2

theorem factMap_clear_inv (fm : FactMap κ Fact) : fm.clear.inv := by
  intro e' he'
  simp only [FactMap.clear, List.mem_map] at he'
  obtain ⟨e, _, rfl⟩ := he'
  refine ⟨fun k => by simp [FactIndex.clear, FactMap.clear], ?_,
    fun k => by simp [FactIndex.clear, FactMap.clear]⟩
  simp [FactIndex.clear, List.Sorted]

theorem lockstep_of_inv {fm : FactMap κ Fact} (h : fm.inv) : fm.lockstep := by
  intro e he fct
  obtain ⟨hb, _⟩ := h e he
  constructor
  · rintro ⟨k, hk⟩
    rw [hb k] at hk
    exact (Finset.mem_filter.mp hk).1
  · intro hmem
    refine ⟨e.keyOf fct, ?_⟩
    rw [hb (e.keyOf fct)]
    exact Finset.mem_filter.mpr ⟨hmem, rfl⟩

/-- C2: invariant preserved by every fact map operation (`add`, `remove`,
`discard`, `clear`): a record is present in each of the fact map's indexes
iff it is present in the fact map's fact set; and when a strict `remove`
raises because the record is missing, neither the fact set nor any index
is modified (the returned state is the original one). -/
theorem factmap_ops_preserve_lockstep (fm : FactMap κ Fact) (hinv : fm.inv)
    (f : Fact) :
    ((fm.add f).inv ∧ (fm.add f).lockstep) ∧
    ((fm.remove f true).2.inv ∧ (fm.remove f true).2.lockstep) ∧
    ((fm.discard f).2.inv ∧ (fm.discard f).2.lockstep) ∧
    (fm.clear.inv ∧ fm.clear.lockstep) ∧
    (f ∉ fm.allfacts → fm.remove f true = (.error .keyError, fm)) := by
  refine ⟨⟨factMap_add_inv hinv f, lockstep_of_inv (factMap_add_inv hinv f)⟩,
    ⟨factMap_remove_inv hinv f true, lockstep_of_inv (factMap_remove_inv hinv f true)⟩,
    ⟨factMap_remove_inv hinv f false, lockstep_of_inv (factMap_remove_inv hinv f false)⟩,
    ⟨factMap_clear_inv fm, lockstep_of_inv (factMap_clear_inv fm)⟩,
    fun hnot => factMap_remove_missing hnot⟩

theorem fmIntW_inv : fmIntW.inv := by
  intro e he
  rcases List.mem_singleton.mp he with rfl
  refine ⟨fun k => by simp [fmIntW, FactIndex.empty], ?_, fun k => by
    simp [fmIntW, FactIndex.empty]⟩
  simp [fmIntW, FactIndex.empty, List.Sorted]

/-- Witness for C2 at the concrete one-index integer fact map and the
record `3`. -/
theorem factmap_ops_preserve_lockstep_witness :
    ((fmIntW.add 3).inv ∧ (fmIntW.add 3).lockstep) ∧
    ((fmIntW.remove 3 true).2.inv ∧ (fmIntW.remove 3 true).2.lockstep) ∧
    ((fmIntW.discard 3).2.inv ∧ (fmIntW.discard 3).2.lockstep) ∧
    (fmIntW.clear.inv ∧ fmIntW.clear.lockstep) ∧
    ((3 : ℤ) ∉ fmIntW.allfacts → fmIntW.remove 3 true = (.error .keyError, fmIntW)) :=
  factmap_ops_preserve_lockstep fmIntW fmIntW_inv 3

theorem drop_takeWhile_length_eq_dropWhile {α : Type} (l : List α) (p : α → Bool) :
    l.drop (l.takeWhile p).length = l.dropWhile p := by
  have h := List.drop_left (l.takeWhile p) (l.dropWhile p)
  rwa [List.takeWhile_append_dropWhile] at h

theorem keysLt_eq (s : FactIndex κ Fact) (v : κ) :
    s.keysLt v = s.keylist.takeWhile (fun x => x < v) := by
  rw [FactIndex.keysLt]
  by_cases h : bisectLeft s.keylist v ≠ 0
  · rw [if_pos h]
    exact (List.prefix_iff_eq_take.mp (List.takeWhile_prefix _)).symm
  · rw [if_neg h]
    push_neg at h
    rw [bisectLeft] at h
    exact (List.length_eq_zero.mp h).symm

theorem keysLe_eq (s : FactIndex κ Fact) (v : κ) :
    s.keysLe v = s.keylist.takeWhile (fun x => x ≤ v) := by
  rw [FactIndex.keysLe]
  by_cases h : bisectRight s.keylist v ≠ 0
  · rw [if_pos h]
    exact (List.prefix_iff_eq_take.mp (List.takeWhile_prefix _)).symm
  · rw [if_neg h]
    push_neg at h
    rw [bisectRight] at h
    exact (List.length_eq_zero.mp h).symm

theorem keysGt_eq (s : FactIndex κ Fact) (v : κ) :
    s.keysGt v = if bisectRight s.keylist v ≠ 0 then
      s.keylist.dropWhile (fun x => x ≤ v) else [] := by
  rw [FactIndex.keysGt]
  by_cases h : bisectRight s.keylist v ≠ 0
  · rw [if_pos h, if_pos h, bisectRight, drop_takeWhile_length_eq_dropWhile]
  · rw [if_neg h, if_neg h]

theorem keysGe_eq (s : FactIndex κ Fact) (v : κ) :
    s.keysGe v = if bisectLeft s.keylist v ≠ 0 then
      s.keylist.dropWhile (fun x => x < v) else [] := by
  rw [FactIndex.keysGe]
  by_cases h : bisectLeft s.keylist v ≠ 0
  · rw [if_pos h, if_pos h, bisectLeft, drop_takeWhile_length_eq_dropWhile]
  · rw [if_neg h, if_neg h]

theorem keysNe_eq (s : FactIndex κ Fact) (v : κ) :
    s.keysNe v = s.keysLt v ++ s.keysGt v := rfl

theorem mem_foldr_union (s : FactIndex κ Fact) (ks : List κ) (f : Fact) :
    (f ∈ ks.foldr (fun k acc => s.key2values k ∪ acc) ∅) ↔
      ∃ k ∈ ks, f ∈ s.key2values k := by
  induction ks with
  | nil => simp
  | cons k t ih => simp [ih]

theorem keyOf_mem_keylist {keyOf : Fact → κ} {facts : Finset Fact}
    {s : FactIndex κ Fact} (hk : s.keyInv keyOf facts) {f : Fact}
    (hf : f ∈ facts) : keyOf f ∈ s.keylist := by
  apply (hk.2 (keyOf f)).mpr
  exact ⟨f, Finset.mem_filter.mpr ⟨hf, rfl⟩⟩

theorem exists_key_le_iff {keyOf : Fact → κ} {facts : Finset Fact}
    {s : FactIndex κ Fact} (hk : s.keyInv keyOf facts) (v : κ) :
    (∃ x ∈ s.keylist, x ≤ v) ↔ ∃ f ∈ facts, keyOf f ≤ v := by
  constructor
  · rintro ⟨x, hx, hxv⟩
    obtain ⟨f, hf⟩ := (hk.2 x).mp hx
    obtain ⟨hfin, hfk⟩ := Finset.mem_filter.mp hf
    exact ⟨f, hfin, hfk ▸ hxv⟩
  · rintro ⟨f, hf, hfv⟩
    exact ⟨keyOf f, keyOf_mem_keylist hk hf, hfv⟩

theorem exists_key_lt_iff {keyOf : Fact → κ} {facts : Finset Fact}
    {s : FactIndex κ Fact} (hk : s.keyInv keyOf facts) (v : κ) :
    (∃ x ∈ s.keylist, x < v) ↔ ∃ f ∈ facts, keyOf f < v := by
  constructor
  · rintro ⟨x, hx, hxv⟩
    obtain ⟨f, hf⟩ := (hk.2 x).mp hx
    obtain ⟨hfin, hfk⟩ := Finset.mem_filter.mp hf
    exact ⟨f, hfin, hfk ▸ hxv⟩
  · rintro ⟨f, hf, hfv⟩
    exact ⟨keyOf f, keyOf_mem_keylist hk hf, hfv⟩

/-- `_FactIndex.find` under the index invariants: the returned set,
characterised fact by fact via `keyCond` (which records the `if posn:`
guards of `_keys_ne/_keys_gt/_keys_ge`). -/
theorem find_mem {keyOf : Fact → κ} {facts : Finset Fact} {s : FactIndex κ Fact}
    (hb : s.bucketInv keyOf facts) (hk : s.keyInv keyOf facts)
    (op : CompOp) (v : κ) (f : Fact) :
    f ∈ s.find op v ↔ f ∈ facts ∧ keyCond facts keyOf op v (keyOf f) := by
  have hbucket : ∀ k, f ∈ s.key2values k ↔ f ∈ facts ∧ keyOf f = k := by
    intro k
    rw [hb k]
    simp [Finset.mem_filter]
  have hmemlist : ∀ ks : List κ, (f ∈ ks.foldr (fun k acc => s.key2values k ∪ acc) ∅ ↔
      f ∈ facts ∧ keyOf f ∈ ks) := by
    intro ks
    rw [mem_foldr_union]
    constructor
    · rintro ⟨k, hkk, hfk⟩
      obtain ⟨h1, h2⟩ := (hbucket k).mp hfk
      exact ⟨h1, h2 ▸ hkk⟩
    · rintro ⟨h1, h2⟩
      exact ⟨keyOf f, h2, (hbucket (keyOf f)).mpr ⟨h1, rfl⟩⟩
  have hmem_takeLt : ∀ x, x ∈ s.keylist.takeWhile (fun y => y < v) ↔
      x ∈ s.keylist ∧ x < v := by
    intro x
    rw [mem_takeWhile_sorted (downclosed_lt v) hk.1]
    simp
  have hmem_takeLe : ∀ x, x ∈ s.keylist.takeWhile (fun y => y ≤ v) ↔
      x ∈ s.keylist ∧ x ≤ v := by
    intro x
    rw [mem_takeWhile_sorted (downclosed_le v) hk.1]
    simp
  have hmem_dropLe : ∀ x, x ∈ s.keylist.dropWhile (fun y => y ≤ v) ↔
      x ∈ s.keylist ∧ v < x := by
    intro x
    rw [mem_dropWhile_sorted (downclosed_le v) hk.1]
    simp
  have hmem_dropLt : ∀ x, x ∈ s.keylist.dropWhile (fun y => y < v) ↔
      x ∈ s.keylist ∧ v ≤ x := by
    intro x
    rw [mem_dropWhile_sorted (downclosed_lt v) hk.1]
    simp
  have hguardR : bisectRight s.keylist v ≠ 0 ↔ ∃ x ∈ facts, keyOf x ≤ v := by
    rw [bisectRight, ← exists_key_le_iff hk v]
    rw [ne_eq, List.length_eq_zero]
    rw [← ne_eq, takeWhile_ne_nil_sorted (downclosed_le v) hk.1]
    simp
  have hguardL : bisectLeft s.keylist v ≠ 0 ↔ ∃ x ∈ facts, keyOf x < v := by
    rw [bisectLeft, ← exists_key_lt_iff hk v]
    rw [ne_eq, List.length_eq_zero]
    rw [← ne_eq, takeWhile_ne_nil_sorted (downclosed_lt v) hk.1]
    simp
  cases op with
  | eq =>
    rw [FactIndex.find]
    rw [FactIndex.keysEq]
    by_cases hbe : s.key2values v ≠ ∅
    · rw [if_pos hbe]
      dsimp only [List.foldr]
      rw [Finset.union_empty, hbucket v]
      rfl
    · rw [if_neg hbe]
      push_neg at hbe
      dsimp only [List.foldr]
      constructor
      · intro hmem
        exact absurd hmem (Finset.not_mem_empty f)
      · rintro ⟨h1, h2⟩
        have : f ∈ s.key2values v := (hbucket v).mpr ⟨h1, h2⟩
        rw [hbe] at this
        exact absurd this (Finset.not_mem_empty f)
  | lt =>
    rw [FactIndex.find]
    rw [keysLt_eq, hmemlist]
    constructor
    · rintro ⟨h1, h2⟩
      exact ⟨h1, ((hmem_takeLt _).mp h2).2⟩
    · rintro ⟨h1, h2⟩
      exact ⟨h1, (hmem_takeLt _).mpr ⟨keyOf_mem_keylist hk h1, h2⟩⟩
  | le =>
    rw [FactIndex.find]
    rw [keysLe_eq, hmemlist]
    constructor
    · rintro ⟨h1, h2⟩
      exact ⟨h1, ((hmem_takeLe _).mp h2).2⟩
    · rintro ⟨h1, h2⟩
      exact ⟨h1, (hmem_takeLe _).mpr ⟨keyOf_mem_keylist hk h1, h2⟩⟩
  | gt =>
    rw [FactIndex.find]
    rw [keysGt_eq]
    by_cases hg : bisectRight s.keylist v ≠ 0
    · rw [if_pos hg, hmemlist]
      constructor
      · rintro ⟨h1, h2⟩
        exact ⟨h1, ((hmem_dropLe _).mp h2).2, hguardR.mp hg⟩
      · rintro ⟨h1, h2, _⟩
        exact ⟨h1, (hmem_dropLe _).mpr ⟨keyOf_mem_keylist hk h1, h2⟩⟩
    · rw [if_neg hg]
      dsimp only [List.foldr]
      constructor
      · intro hmem
        exact absurd hmem (Finset.not_mem_empty f)
      · rintro ⟨_, _, hex⟩
        exact absurd (hguardR.mpr hex) hg
  | ge =>
    rw [FactIndex.find]
    rw [keysGe_eq]
    by_cases hg : bisectLeft s.keylist v ≠ 0
    · rw [if_pos hg, hmemlist]
      constructor
      · rintro ⟨h1, h2⟩
        exact ⟨h1, ((hmem_dropLt _).mp h2).2, hguardL.mp hg⟩
      · rintro ⟨h1, h2, _⟩
        exact ⟨h1, (hmem_dropLt _).mpr ⟨keyOf_mem_keylist hk h1, h2⟩⟩
    · rw [if_neg hg]
      dsimp only [List.foldr]
      constructor
      · intro hmem
        exact absurd hmem (Finset.not_mem_empty f)
      · rintro ⟨_, _, hex⟩
        exact absurd (hguardL.mpr hex) hg
  | ne =>
    rw [FactIndex.find]
    rw [keysNe_eq, hmemlist]
    rw [List.mem_append, keysLt_eq, keysGt_eq]
    constructor
    · rintro ⟨h1, h2 | h2⟩
      · exact ⟨h1, Or.inl ((hmem_takeLt _).mp h2).2⟩
      · by_cases hg : bisectRight s.keylist v ≠ 0
        · rw [if_pos hg] at h2
          exact ⟨h1, Or.inr ⟨((hmem_dropLe _).mp h2).2, hguardR.mp hg⟩⟩
        · rw [if_neg hg] at h2
          exact absurd h2 (List.not_mem_nil _)
    · rintro ⟨h1, h2 | ⟨h2, hex⟩⟩
      · exact ⟨h1, Or.inl ((hmem_takeLt _).mpr ⟨keyOf_mem_keylist hk h1, h2⟩)⟩
      · refine ⟨h1, Or.inr ?_⟩
        rw [if_pos (hguardR.mpr hex)]
        exact (hmem_dropLe _).mpr ⟨keyOf_mem_keylist hk h1, h2⟩

/-- `keyCond` only mentions the fact set through bounded existentials, so
it is monotone in the fact set. -/
theorem keyCond_mono {keyOf : Fact → κ} {s t : Finset Fact} (hsub : s ⊆ t)
    (op : CompOp) (v k : κ) (h : keyCond s keyOf op v k) :
    keyCond t keyOf op v k := by
  cases op with
  | eq => exact h
  | lt => exact h
  | le => exact h
  | ne =>
    rcases h with h1 | ⟨h1, f, hf, hfv⟩
    · exact Or.inl h1
    · exact Or.inr ⟨h1, f, hsub hf, hfv⟩
  | gt =>
    obtain ⟨h1, f, hf, hfv⟩ := h
    exact ⟨h1, f, hsub hf, hfv⟩
  | ge =>
    obtain ⟨h1, f, hf, hfv⟩ := h
    exact ⟨h1, f, hsub hf, hfv⟩

theorem mem_setIter [LinearOrder Fact] {s : Finset Fact} {f : Fact} :
    f ∈ setIter s ↔ f ∈ s := Finset.mem_sort _

theorem mem_stableSortByCmp {c : Fact → Fact → Int} {l : List Fact} {f : Fact} :
    f ∈ stableSortByCmp c l ↔ f ∈ l := List.mem_insertionSort _

/-- Membership characterisation of `_Select.get`'s output list. -/
theorem mem_selectGet {β : Type} [LinearOrder Fact] {fm : FactMap κ Fact}
    {sel : Sel κ Fact β} {b : β} {f : Fact} :
    f ∈ selectGet fm sel b ↔
      sel.whereApp f b = true ∧
      ((sel.indexable = none ∧ f ∈ fm.allfacts) ∨
        ∃ i op argv e, sel.indexable = some (i, op, argv) ∧
          fm.findexes.get? i = some e ∧ f ∈ e.idx.find op (argv b)) := by
  have hbase : f ∈ selectGetBase fm sel b ↔
      sel.whereApp f b = true ∧
      ((sel.indexable = none ∧ f ∈ fm.allfacts) ∨
        ∃ i op argv e, sel.indexable = some (i, op, argv) ∧
          fm.findexes.get? i = some e ∧ f ∈ e.idx.find op (argv b)) := by
    rcases h1 : sel.indexable with _ | ⟨i, op, argv⟩
    · have hL : f ∈ selectGetBase fm sel b ↔
          f ∈ fm.allfacts ∧ sel.whereApp f b = true := by
        simp only [selectGetBase, h1, List.mem_filter, mem_setIter]
      rw [hL]
      constructor
      · rintro ⟨hf, hw⟩
        exact ⟨hw, Or.inl ⟨rfl, hf⟩⟩
      · rintro ⟨hw, ⟨_, hf⟩ | ⟨i, op, argv, e, hsome, _, _⟩⟩
        · exact ⟨hf, hw⟩
        · exact Option.noConfusion hsome
    · rcases h2 : fm.findexes.get? i with _ | e
      · have hL : f ∈ selectGetBase fm sel b ↔ f ∈ ([] : List Fact) := by
          simp only [selectGetBase, h1, h2]
        rw [hL]
        simp only [List.not_mem_nil, false_iff, not_and]
        intro _ hdisj
        rcases hdisj with ⟨hnone, _⟩ | ⟨i2, op2, argv2, e2, hsome, hget, _⟩
        · exact Option.noConfusion hnone
        · have h3 := Option.some.inj hsome
          have hi : i = i2 := congrArg Prod.fst h3
          rw [← hi, h2] at hget
          exact Option.noConfusion hget
      · have hL : f ∈ selectGetBase fm sel b ↔
            f ∈ e.idx.find op (argv b) ∧ sel.whereApp f b = true := by
          simp only [selectGetBase, h1, h2, List.mem_filter, mem_setIter]
        rw [hL]
        constructor
        · rintro ⟨hf, hw⟩
          exact ⟨hw, Or.inr ⟨i, op, argv, e, rfl, h2, hf⟩⟩
        · rintro ⟨hw, ⟨hnone, _⟩ | ⟨i2, op2, argv2, e2, hsome, hget, hfind⟩⟩
          · exact Option.noConfusion hnone
          · have h3 := Option.some.inj hsome
            have hi : i = i2 := congrArg Prod.fst h3
            have hop : op = op2 := congrArg (fun p => p.2.1) h3
            have hargv : argv = argv2 := congrArg (fun p => p.2.2) h3
            rw [← hi, h2] at hget
            obtain rfl := Option.some.inj hget
            rw [← hop, ← hargv] at hfind
            exact ⟨hfind, hw⟩
  rw [selectGet]
  rcases h3 : sel.sortCmp with _ | c
  · exact hbase
  · rw [mem_stableSortByCmp]
    exact hbase

theorem selectGet_nodup {β : Type} [LinearOrder Fact] (fm : FactMap κ Fact)
    (sel : Sel κ Fact β) (b : β) : (selectGet fm sel b).Nodup := by
  have hbase : (selectGetBase fm sel b).Nodup := by
    rcases h1 : sel.indexable with _ | ⟨i, op, argv⟩
    · simp only [selectGetBase, h1]
      exact (Finset.sort_nodup _ _).filter _
    · simp only [selectGetBase, h1]
      rcases h2 : fm.findexes.get? i with _ | e
      · exact List.nodup_nil
      · exact (Finset.sort_nodup _ _).filter _
  rw [selectGet]
  rcases h3 : sel.sortCmp with _ | c
  · exact hbase
  · exact ((List.perm_insertionSort _ _).nodup_iff).mpr hbase

theorem indexesRemove_keyOf (f : Fact) (r : Bool) (es : List (IndexEntry κ Fact))
    (i : Nat) :
    ((indexesRemove f r es).2.get? i).map IndexEntry.keyOf =
      (es.get? i).map IndexEntry.keyOf := by
  induction es generalizing i with
  | nil => rfl
  | cons e rest ih =>
    simp only [indexesRemove]
    rcases h : FactIndex.remove e.keyOf e.idx f r with err | idx'
    · rfl
    · cases i with
      | zero => rfl
      | succ n => simpa using ih n

theorem factMap_remove_keyOf (fm : FactMap κ Fact) (f : Fact) (r : Bool) (i : Nat) :
    (((fm.remove f r).2.findexes.get? i).map IndexEntry.keyOf) =
      ((fm.findexes.get? i).map IndexEntry.keyOf) := by
  rw [FactMap.remove]
  split
  · rfl
  · exact indexesRemove_keyOf f r fm.findexes i

theorem removeAll_sound {fm : FactMap κ Fact} (hinv : fm.inv) (td : List Fact)
    (hsub : ∀ f ∈ td, f ∈ fm.allfacts) (hnd : td.Nodup) :
    (removeAll fm td).1 = .ok () ∧
    (removeAll fm td).2.allfacts = fm.allfacts \ td.toFinset ∧
    (removeAll fm td).2.inv ∧
    ∀ i, (((removeAll fm td).2.findexes.get? i).map IndexEntry.keyOf) =
      ((fm.findexes.get? i).map IndexEntry.keyOf) := by
  induction td generalizing fm with
  | nil =>
    refine ⟨rfl, ?_, hinv, fun i => rfl⟩
    simp [removeAll]
  | cons f rest ih =>
    obtain ⟨hok, hfacts, hinv'⟩ :=
      factMap_remove_sound hinv f true (Or.inr (hsub f (List.mem_cons_self f rest)))
    have hsub' : ∀ g ∈ rest, g ∈ (fm.remove f true).2.allfacts := by
      intro g hg
      rw [hfacts]
      apply Finset.mem_erase.mpr
      refine ⟨?_, hsub g (List.mem_cons_of_mem f hg)⟩
      intro hgf
      rw [hgf] at hg
      exact (List.nodup_cons.mp hnd).1 hg
    obtain ⟨ih1, ih2, ih3, ih4⟩ := ih hinv' hsub' (List.nodup_cons.mp hnd).2
    have hstep : removeAll fm (f :: rest) = removeAll (fm.remove f true).2 rest := by
      rw [removeAll]
      rw [hok]
    refine ⟨hstep ▸ ih1, ?_, hstep ▸ ih3, ?_⟩
    · rw [hstep, ih2, hfacts, Finset.erase_eq, sdiff_sdiff, List.toFinset_cons,
        Finset.insert_eq, Finset.sup_eq_union]
    · intro i
      rw [hstep, ih4 i, factMap_remove_keyOf]

/-- C4: for every where-bound delete query and every placeholder binding,
`_Delete.execute` removes from the fact map exactly the records returned
by the equivalent `_Select.get` with the same binding and no others,
returns the number removed, and afterwards re-running the same select
returns the empty result. -/
theorem delete_execute_roundtrip {β : Type} [LinearOrder Fact] (fm : FactMap κ Fact)
    (sel : Sel κ Fact β) (b : β) (hinv : fm.inv)
    (hwhere : sel.whereFn.isSome = true) :
    (deleteExecute fm sel b).1 = .ok (selectGet fm sel b).length ∧
    (selectGet fm sel b).toFinset ⊆ fm.allfacts ∧
    (deleteExecute fm sel b).2.allfacts =
      fm.allfacts \ (selectGet fm sel b).toFinset ∧
    selectGet (deleteExecute fm sel b).2 sel b = [] := by
  have _ := hwhere
  have hsub : ∀ f ∈ selectGet fm sel b, f ∈ fm.allfacts := by
    intro f hf
    obtain ⟨hw, hdisj⟩ := mem_selectGet.mp hf
    rcases hdisj with ⟨_, hmem⟩ | ⟨i, op, argv, e, _, hget, hfind⟩
    · exact hmem
    · have he : e ∈ fm.findexes := List.get?_mem hget
      obtain ⟨hbinv, hkinv⟩ := hinv e he
      exact ((find_mem hbinv hkinv op (argv b) f).mp hfind).1
  obtain ⟨hok, hfacts, hinv', hkeyOf⟩ :=
    removeAll_sound hinv (selectGet fm sel b) hsub (selectGet_nodup fm sel b)
  have hexec1 : (deleteExecute fm sel b).1 = .ok (selectGet fm sel b).length := by
    rw [deleteExecute, hok]
  have hexec2 : (deleteExecute fm sel b).2 =
      (removeAll fm (selectGet fm sel b)).2 := by
    rw [deleteExecute, hok]
  refine ⟨hexec1, ?_, ?_, ?_⟩
  · intro f hf
    exact hsub f (List.mem_toFinset.mp hf)
  · rw [hexec2, hfacts]
  · rw [List.eq_nil_iff_forall_not_mem]
    intro f hf
    obtain ⟨hw, hdisj⟩ := mem_selectGet.mp hf
    rcases hdisj with ⟨hnone, hmem⟩ | ⟨i, op, argv, e', hsome, hget', hfind'⟩
    · rw [hexec2, hfacts] at hmem
      obtain ⟨hfin, hfnot⟩ := Finset.mem_sdiff.mp hmem
      apply hfnot
      apply List.mem_toFinset.mpr
      exact mem_selectGet.mpr ⟨hw, Or.inl ⟨hnone, hfin⟩⟩
    · rw [hexec2] at hget'
      have hkof := hkeyOf i
      rw [hget'] at hkof
      rcases hget : fm.findexes.get? i with _ | e
      · rw [hget] at hkof
        exact Option.noConfusion hkof
      · rw [hget] at hkof
        have hkeq : e'.keyOf = e.keyOf := by
          simpa using hkof
        have he' : e' ∈ (removeAll fm (selectGet fm sel b)).2.findexes :=
          List.get?_mem hget'
        obtain ⟨hbinv', hkinv'⟩ := hinv' e' he'
        have hmem' := (find_mem hbinv' hkinv' op (argv b) f).mp hfind'
        rw [hfacts] at hmem'
        obtain ⟨hfmem, hcond⟩ := hmem'
        obtain ⟨hfin, hfnot⟩ := Finset.mem_sdiff.mp hfmem
        apply hfnot
        apply List.mem_toFinset.mpr
        have he : e ∈ fm.findexes := List.get?_mem hget
        obtain ⟨hbinv, hkinv⟩ := hinv e he
        rw [hkeq] at hcond
        have hcond2 : keyCond fm.allfacts e.keyOf op (argv b) (e.keyOf f) :=
          keyCond_mono Finset.sdiff_subset op (argv b) (e.keyOf f) hcond
        have hfind : f ∈ e.idx.find op (argv b) :=
          (find_mem hbinv hkinv op (argv b) f).mpr ⟨hfin, hcond2⟩
        exact mem_selectGet.mpr ⟨hw, Or.inr ⟨i, op, argv, e, hsome, hget, hfind⟩⟩

theorem compare_of_eq {o : FieldOrderBy Fact κ} {a b : Fact}
    (h : o.fpeval a = o.fpeval b) : o.compare a b = 0 := by
  rw [FieldOrderBy.compare]
  rw [if_pos h]

theorem compare_of_lt_asc {o : FieldOrderBy Fact κ} {a b : Fact}
    (hasc : o.asc = true) (h : o.fpeval a < o.fpeval b) : o.compare a b = -1 := by
  rw [FieldOrderBy.compare]
  rw [if_neg (ne_of_lt h), if_pos ⟨hasc, h⟩]

theorem compare_of_gt_asc {o : FieldOrderBy Fact κ} {a b : Fact}
    (hasc : o.asc = true) (h : o.fpeval b < o.fpeval a) : o.compare a b = 1 := by
  rw [FieldOrderBy.compare]
  rw [if_neg (ne_of_gt h), if_neg (fun hc => absurd hc.2 (not_lt_of_lt h)),
    if_neg (fun hc => absurd (hasc ▸ hc.1) (by decide))]

theorem compare_of_lt_desc {o : FieldOrderBy Fact κ} {a b : Fact}
    (hasc : o.asc = false) (h : o.fpeval a < o.fpeval b) : o.compare a b = 1 := by
  rw [FieldOrderBy.compare]
  rw [if_neg (ne_of_lt h), if_neg (fun hc => absurd (hasc ▸ hc.1) (by decide)),
    if_neg (fun hc => absurd hc.2 (not_lt_of_lt h))]

theorem compare_of_gt_desc {o : FieldOrderBy Fact κ} {a b : Fact}
    (hasc : o.asc = false) (h : o.fpeval b < o.fpeval a) : o.compare a b = -1 := by
  rw [FieldOrderBy.compare]
  rw [if_neg (ne_of_gt h), if_neg (fun hc => absurd (hasc ▸ hc.1) (by decide)),
    if_pos ⟨hasc, h⟩]

theorem compare_eq_zero_iff {o : FieldOrderBy Fact κ} {a b : Fact} :
    o.compare a b = 0 ↔ o.fpeval a = o.fpeval b := by
  constructor
  · intro h0
    by_contra hne
    rcases lt_or_gt_of_ne hne with h | h
    · cases hasc : o.asc
      · rw [compare_of_lt_desc hasc h] at h0
        exact one_ne_zero h0
      · rw [compare_of_lt_asc hasc h] at h0
        exact absurd h0 (by decide)
    · cases hasc : o.asc
      · rw [compare_of_gt_desc hasc h] at h0
        exact absurd h0 (by decide)
      · rw [compare_of_gt_asc hasc h] at h0
        exact one_ne_zero h0
  · exact compare_of_eq

theorem compare_neg_swap {o : FieldOrderBy Fact κ} {a b : Fact}
    (h : o.compare a b = -1) : o.compare b a = 1 := by
  rcases lt_trichotomy (o.fpeval a) (o.fpeval b) with hv | hv | hv
  · cases hasc : o.asc
    · rw [compare_of_lt_desc hasc hv] at h
      exact absurd h (by decide)
    · exact compare_of_gt_asc hasc hv
  · rw [compare_of_eq hv] at h
    exact absurd h (by decide)
  · cases hasc : o.asc
    · exact compare_of_lt_desc hasc hv
    · rw [compare_of_gt_asc hasc hv] at h
      exact absurd h (by decide)

theorem compare_pos_swap {o : FieldOrderBy Fact κ} {a b : Fact}
    (h : o.compare a b = 1) : o.compare b a = -1 := by
  rcases lt_trichotomy (o.fpeval a) (o.fpeval b) with hv | hv | hv
  · cases hasc : o.asc
    · exact compare_of_gt_desc hasc hv
    · rw [compare_of_lt_asc hasc hv] at h
      exact absurd h (by decide)
  · rw [compare_of_eq hv] at h
    exact absurd h (by decide)
  · cases hasc : o.asc
    · rw [compare_of_gt_desc hasc hv] at h
      exact absurd h (by decide)
    · exact compare_of_lt_asc hasc hv

theorem compare_values {o : FieldOrderBy Fact κ} (a b : Fact) :
    o.compare a b = 0 ∨ o.compare a b = -1 ∨ o.compare a b = 1 := by
  rcases lt_trichotomy (o.fpeval a) (o.fpeval b) with hv | hv | hv
  · cases hasc : o.asc
    · exact Or.inr (Or.inr (compare_of_lt_desc hasc hv))
    · exact Or.inr (Or.inl (compare_of_lt_asc hasc hv))
  · exact Or.inl (compare_of_eq hv)
  · cases hasc : o.asc
    · exact Or.inr (Or.inl (compare_of_gt_desc hasc hv))
    · exact Or.inr (Or.inr (compare_of_gt_asc hasc hv))

theorem compare_congr_left {o : FieldOrderBy Fact κ} {a b : Fact} (c : Fact)
    (h : o.fpeval a = o.fpeval b) : o.compare a c = o.compare b c := by
  rw [FieldOrderBy.compare, FieldOrderBy.compare, h]

theorem compare_congr_right {o : FieldOrderBy Fact κ} {a b : Fact} (c : Fact)
    (h : o.fpeval a = o.fpeval b) : o.compare c a = o.compare c b := by
  rw [FieldOrderBy.compare, FieldOrderBy.compare, h]

theorem myCmp_refl (fos : List (FieldOrderBy Fact κ)) (a : Fact) :
    myCmp fos a a = 0 := by
  induction fos with
  | nil => rfl
  | cons o rest ih =>
    rw [myCmp]
    rw [if_pos (compare_of_eq rfl)]
    exact ih

theorem myCmp_eq_zero_of_keyTuple_eq {fos : List (FieldOrderBy Fact κ)} {a b : Fact}
    (h : keyTuple fos a = keyTuple fos b) : myCmp fos a b = 0 := by
  induction fos with
  | nil => rfl
  | cons o rest ih =>
    simp only [keyTuple, List.map_cons] at h
    obtain ⟨h1, h2⟩ := List.cons.inj h
    rw [myCmp]
    rw [if_pos (compare_of_eq h1)]
    exact ih h2

theorem myCmp_total (fos : List (FieldOrderBy Fact κ)) (a b : Fact) :
    myCmp fos a b ≤ 0 ∨ myCmp fos b a ≤ 0 := by
  induction fos with
  | nil => exact Or.inl (le_refl 0)
  | cons o rest ih =>
    rw [myCmp, myCmp]
    rcases compare_values (o := o) a b with h | h | h
    · have h2 : o.compare b a = 0 := compare_of_eq (compare_eq_zero_iff.mp h).symm
      rw [if_pos h, if_pos h2]
      exact ih
    · left
      rw [if_neg (by rw [h]; decide), h]
      decide
    · right
      rw [if_neg (by rw [compare_pos_swap h]; decide), compare_pos_swap h]
      decide

theorem myCmp_antisym {fos : List (FieldOrderBy Fact κ)} {a b : Fact}
    (hab : myCmp fos a b ≤ 0) (hba : myCmp fos b a ≤ 0) :
    keyTuple fos a = keyTuple fos b := by
  induction fos with
  | nil => rfl
  | cons o rest ih =>
    rw [myCmp] at hab hba
    rcases compare_values (o := o) a b with h1 | h1 | h1
    · have h2 : o.compare b a = 0 := compare_of_eq (compare_eq_zero_iff.mp h1).symm
      rw [if_pos h1] at hab
      rw [if_pos h2] at hba
      simp only [keyTuple, List.map_cons]
      rw [compare_eq_zero_iff.mp h1]
      exact congrArg _ (ih hab hba)
    · rw [if_neg (by rw [compare_neg_swap h1]; decide), compare_neg_swap h1] at hba
      exact absurd hba (by decide)
    · rw [if_neg (by rw [h1]; decide), h1] at hab
      exact absurd hab (by decide)

theorem myCmp_trans {fos : List (FieldOrderBy Fact κ)} {a b c : Fact}
    (hab : myCmp fos a b ≤ 0) (hbc : myCmp fos b c ≤ 0) : myCmp fos a c ≤ 0 := by
  induction fos with
  | nil => exact le_refl 0
  | cons o rest ih =>
    rw [myCmp] at hab hbc ⊢
    rcases compare_values (o := o) a b with h1 | h1 | h1
    · -- the first key agrees between a and b
      have hv1 : o.fpeval a = o.fpeval b := compare_eq_zero_iff.mp h1
      rw [if_pos h1] at hab
      rw [compare_congr_left c hv1]
      rcases compare_values (o := o) b c with h2 | h2 | h2
      · rw [if_pos h2] at hbc ⊢
        exact ih hab hbc
      · rw [if_neg (by rw [h2]; decide), h2]
        decide
      · rw [if_neg (by rw [h2]; decide), h2] at hbc
        exact absurd hbc (by decide)
    · -- a strictly precedes b on the first key
      rcases compare_values (o := o) b c with h2 | h2 | h2
      · have hv2 : o.fpeval b = o.fpeval c := compare_eq_zero_iff.mp h2
        rw [← compare_congr_right (o := o) a hv2]
        rw [if_neg (by rw [h1]; decide), h1]
        decide
      · have hac : o.compare a c = -1 := by
          rcases lt_trichotomy (o.fpeval a) (o.fpeval b) with hv | hv | hv
          · rcases lt_trichotomy (o.fpeval b) (o.fpeval c) with hw | hw | hw
            · cases hasc : o.asc
              · rw [compare_of_lt_desc hasc hv] at h1
                exact absurd h1 (by decide)
              · exact compare_of_lt_asc hasc (lt_trans hv hw)
            · rw [compare_of_eq hw] at h2
              exact absurd h2 (by decide)
            · cases hasc : o.asc
              · rw [compare_of_lt_desc hasc hv] at h1
                exact absurd h1 (by decide)
              · rw [compare_of_gt_asc hasc hw] at h2
                exact absurd h2 (by decide)
          · rw [compare_of_eq hv] at h1
            exact absurd h1 (by decide)
          · rcases lt_trichotomy (o.fpeval b) (o.fpeval c) with hw | hw | hw
            · cases hasc : o.asc
              · rw [compare_of_lt_desc hasc hw] at h2
                exact absurd h2 (by decide)
              · rw [compare_of_gt_asc hasc hv] at h1
                exact absurd h1 (by decide)
            · rw [compare_of_eq hw] at h2
              exact absurd h2 (by decide)
            · cases hasc : o.asc
              · exact compare_of_gt_desc hasc (lt_trans hw hv)
              · rw [compare_of_gt_asc hasc hv] at h1
                exact absurd h1 (by decide)
        rw [if_neg (by rw [hac]; decide), hac]
        decide
      · rw [if_neg (by rw [h2]; decide), h2] at hbc
        exact absurd hbc (by decide)
    · rw [if_neg (by rw [h1]; decide), h1] at hab
      exact absurd hab (by decide)

theorem filter_orderedInsert_pos {r : Fact → Fact → Prop} [DecidableRel r]
    {p : Fact → Bool} {x : Fact} {t : List Fact}
    (hpx : p x = true) (hall : ∀ y ∈ t, p y = true → r x y) :
    (t.orderedInsert r x).filter p = x :: t.filter p := by
  induction t with
  | nil => simp [List.orderedInsert, hpx]
  | cons y t' ih =>
    rw [List.orderedInsert]
    by_cases hr : r x y
    · rw [if_pos hr, List.filter_cons_of_pos hpx]
    · rw [if_neg hr]
      have hpy : p y = false := by
        rcases Bool.eq_false_or_eq_true (p y) with h | h
        · exact absurd (hall y (List.mem_cons_self y t') h) hr
        · exact h
      rw [List.filter_cons_of_neg (by simp [hpy]),
        ih (fun y' hy' hp' => hall y' (List.mem_cons_of_mem y hy') hp'),
        List.filter_cons_of_neg (by simp [hpy])]

theorem filter_orderedInsert_neg {r : Fact → Fact → Prop} [DecidableRel r]
    {p : Fact → Bool} {x : Fact} {t : List Fact} (hpx : p x = false) :
    (t.orderedInsert r x).filter p = t.filter p := by
  induction t with
  | nil => simp [List.orderedInsert, hpx]
  | cons y t' ih =>
    rw [List.orderedInsert]
    by_cases hr : r x y
    · rw [if_pos hr, List.filter_cons_of_neg (by simp [hpx])]
    · rw [if_neg hr]
      by_cases hpy : p y = true
      · rw [List.filter_cons_of_pos hpy, List.filter_cons_of_pos hpy, ih]
      · rw [List.filter_cons_of_neg hpy, List.filter_cons_of_neg hpy, ih]

/-- Stability of the embedded sort: for every key tuple, the subsequence
of records carrying that tuple is unchanged by sorting — ties keep their
original relative order. -/
theorem stableSort_filter_keyclass (fos : List (FieldOrderBy Fact κ)) (l : List Fact)
    (t : List κ) :
    (stableSortByCmp (myCmp fos) l).filter (fun x => decide (keyTuple fos x = t)) =
      l.filter (fun x => decide (keyTuple fos x = t)) := by
  induction l with
  | nil => rfl
  | cons a l' ih =>
    rw [stableSortByCmp, List.insertionSort]
    by_cases hpa : keyTuple fos a = t
    · rw [filter_orderedInsert_pos (by simpa using hpa) (fun y _ hy => by
        have hty : keyTuple fos y = t := by simpa using hy
        have : myCmp fos a y = 0 :=
          myCmp_eq_zero_of_keyTuple_eq (hpa.trans hty.symm)
        rw [this])]
      rw [List.filter_cons_of_pos (by simpa using hpa)]
      exact congrArg _ ih
    · rw [filter_orderedInsert_neg (by simpa using hpa)]
      rw [List.filter_cons_of_neg (by simpa using hpa)]
      exact ih

/-- Two sorted lists that are permutations of each other are equal,
provided the order is antisymmetric on the elements involved. -/
theorem sorted_perm_eq {r : Fact → Fact → Prop} :
    ∀ {l₁ l₂ : List Fact}, l₁.Perm l₂ → l₁.Sorted r → l₂.Sorted r →
      (∀ a b, a ∈ l₁ → b ∈ l₁ → r a b → r b a → a = b) → l₁ = l₂ := by
  intro l₁
  induction l₁ with
  | nil =>
    intro l₂ hp _ _ _
    exact (List.Perm.eq_nil hp.symm).symm
  | cons a t ih =>
    intro l₂ hp hs₁ hs₂ hanti
    rcases l₂ with _ | ⟨b, t₂⟩
    · exact absurd (List.Perm.eq_nil hp) (by simp)
    · have hab : a = b := by
        have ha₂ : a ∈ b :: t₂ := hp.subset (List.mem_cons_self a t)
        rcases List.mem_cons.mp ha₂ with h | h
        · exact h
        · have hrba : r b a := (List.sorted_cons.mp hs₂).1 a h
          have hb₁ : b ∈ a :: t := hp.symm.subset (List.mem_cons_self b t₂)
          rcases List.mem_cons.mp hb₁ with h' | h'
          · exact h'.symm
          · have hrab : r a b := (List.sorted_cons.mp hs₁).1 b h'
            exact hanti a b (List.mem_cons_self a t) (List.mem_cons_of_mem a h')
              hrab hrba
      subst hab
      have hp' : t.Perm t₂ := hp.cons_inv
      have ht := ih hp' (List.sorted_cons.mp hs₁).2 (List.sorted_cons.mp hs₂).2
        (fun x y hx hy => hanti x y (List.mem_cons_of_mem a hx)
          (List.mem_cons_of_mem a hy))
      rw [ht]

/-- C7 counterexample: the claim states that reversing the whole input and
re-sorting yields the identical output sequence.  With two distinct
records tied on every ordering key — integer pairs `(1,1)` and `(1,2)`
ordered by their first component only — the stable sort keeps the input
order of the tie, so the reversed input sorts to the reversed output. -/
theorem sort_reverse_changes_output :
    stableSortByCmp (myCmp [foFstAsc]) ([((1 : ℤ), (1 : ℤ)), (1, 2)].reverse) ≠
      stableSortByCmp (myCmp [foFstAsc]) [((1 : ℤ), (1 : ℤ)), (1, 2)] := by
  decide

/-- C7 (amended): query results are sorted by the stable composite
comparator `mycmp` (first differing key decides): unconditionally, the
output is a permutation of the input, sorted under the comparator, and
for every key tuple the records carrying it keep their original relative
order; and — provided no two distinct records are equal on all ordering
keys — reversing the whole input and re-sorting yields the identical
output sequence. -/
theorem order_by_stable_sort (fos : List (FieldOrderBy Fact κ)) (l : List Fact)
    (t : List κ) :
    (stableSortByCmp (myCmp fos) l).Perm l ∧
    List.Sorted (fun a b => myCmp fos a b ≤ 0) (stableSortByCmp (myCmp fos) l) ∧
    ((stableSortByCmp (myCmp fos) l).filter (fun x => decide (keyTuple fos x = t)) =
      l.filter (fun x => decide (keyTuple fos x = t))) ∧
    ((∀ a ∈ l, ∀ b ∈ l, keyTuple fos a = keyTuple fos b → a = b) →
      stableSortByCmp (myCmp fos) l.reverse = stableSortByCmp (myCmp fos) l) := by
  haveI hT : IsTotal Fact (fun a b => myCmp fos a b ≤ 0) :=
    ⟨fun a b => myCmp_total fos a b⟩
  haveI hTr : IsTrans Fact (fun a b => myCmp fos a b ≤ 0) :=
    ⟨fun a b c => myCmp_trans⟩
  refine ⟨List.perm_insertionSort _ l, List.sorted_insertionSort _ l,
    stableSort_filter_keyclass fos l t, fun hnotie => ?_⟩
  apply sorted_perm_eq (r := fun a b => myCmp fos a b ≤ 0)
  · exact (List.perm_insertionSort _ l.reverse).trans
      ((List.reverse_perm l).trans (List.perm_insertionSort _ l).symm)
  · exact List.sorted_insertionSort _ l.reverse
  · exact List.sorted_insertionSort _ l
  · intro a b ha hb hrab hrba
    have ha' : a ∈ l := by
      have := (List.perm_insertionSort
        (fun a b => myCmp fos a b ≤ 0) l.reverse).subset ha
      simpa using this
    have hb' : b ∈ l := by
      have := (List.perm_insertionSort
        (fun a b => myCmp fos a b ≤ 0) l.reverse).subset hb
      simpa using this
    exact hnotie a ha' b hb' (myCmp_antisym hrab hrba)

/-- Witness for C7 at a concrete two-element list of integer pairs with
distinct ordering keys. -/
theorem order_by_stable_sort_witness :
    (stableSortByCmp (myCmp [foFstAsc]) [((1 : ℤ), (2 : ℤ)), (0, 5)]).Perm
        [((1 : ℤ), (2 : ℤ)), (0, 5)] ∧
    List.Sorted (fun a b => myCmp [foFstAsc] a b ≤ 0)
      (stableSortByCmp (myCmp [foFstAsc]) [((1 : ℤ), (2 : ℤ)), (0, 5)]) ∧
    ((stableSortByCmp (myCmp [foFstAsc]) [((1 : ℤ), (2 : ℤ)), (0, 5)]).filter
        (fun x => decide (keyTuple [foFstAsc] x = [1])) =
      [((1 : ℤ), (2 : ℤ)), (0, 5)].filter
        (fun x => decide (keyTuple [foFstAsc] x = [1]))) ∧
    stableSortByCmp (myCmp [foFstAsc]) ([((1 : ℤ), (2 : ℤ)), (0, 5)].reverse) =
      stableSortByCmp (myCmp [foFstAsc]) [((1 : ℤ), (2 : ℤ)), (0, 5)] :=
  ⟨(order_by_stable_sort [foFstAsc] [((1 : ℤ), (2 : ℤ)), (0, 5)] [1]).1,
   (order_by_stable_sort [foFstAsc] [((1 : ℤ), (2 : ℤ)), (0, 5)] [1]).2.1,
   (order_by_stable_sort [foFstAsc] [((1 : ℤ), (2 : ℤ)), (0, 5)] [1]).2.2.1,
   (order_by_stable_sort [foFstAsc] [((1 : ℤ), (2 : ℤ)), (0, 5)] [1]).2.2.2
     (by decide)⟩

/-- Witness for C4 at a concrete indexed fact map, where-bound select and
unit binding. -/
theorem delete_execute_roundtrip_witness :
    (deleteExecute fmC4 selC4 ()).1 = .ok (selectGet fmC4 selC4 ()).length ∧
    (selectGet fmC4 selC4 ()).toFinset ⊆ fmC4.allfacts ∧
    (deleteExecute fmC4 selC4 ()).2.allfacts =
      fmC4.allfacts \ (selectGet fmC4 selC4 ()).toFinset ∧
    selectGet (deleteExecute fmC4 selC4 ()).2 selC4 () = [] :=
  delete_execute_roundtrip fmC4 selC4 ()
    (factMap_add_inv (factMap_add_inv fmIntW_inv 1) 5) rfl

/-- C3: the claim states that `simplified()` preserves the evaluation of
every condition tree.  It fails: in `BoolComparator.simplified` the two
would-be short-circuit returns — an `and` argument that simplifies to a
static False and an `or` argument that simplifies to a static True — are
bare expression statements (`sarg` on a line of its own) with no effect,
so every statically-decided argument is silently dropped from the node.
For the conjunction `path0 != path0 and path0 == 5`, whose first conjunct
is trivially false, the original condition evaluates to `False` on every
record, while the simplified condition is the surviving `path0 == 5`,
which evaluates to `True` on the record `5`. -/
theorem simplified_changes_evaluation :
    c3exC.call 5 bIntTrivial = false ∧
      (FComp.simplified c3exC).call 5 bIntTrivial = true := by
  constructor <;>
    simp [c3exC, FComp.call, FComp.callAll, FComp.simplified, FComp.simplifyArgs,
      fqStatic, CompOp.onEqualArgs, CompOp.apply, FQArg.resolve, fpeInt, bIntTrivial]

theorem psCombine_none_left (indexes : List Nat) (tmp : Option (IxCand Fact κ)) :
    psCombine indexes none tmp = tmp := by
  cases tmp <;> rfl

theorem foldl_prioStep_stay (indexes : List Nat) {cur : IxCand Fact κ}
    {L : List (IxCand Fact κ)}
    (h : ∀ y ∈ L, ¬ prio indexes y < prio indexes cur) :
    L.foldl (prioStep indexes) (some cur) = some cur := by
  induction L with
  | nil => rfl
  | cons z t ih =>
    have hz : ¬ indexes.indexOf z.1.spec < indexes.indexOf cur.1.spec :=
      h z (List.mem_cons_self z t)
    show List.foldl (prioStep indexes) (prioStep indexes (some cur) z) t = some cur
    rw [show prioStep indexes (some cur) z = some cur from by
      simp only [prioStep]; rw [if_neg hz]]
    exact ih (fun y hy => h y (List.mem_cons_of_mem z hy))

theorem foldl_prioStep_congr (indexes : List Nat) {L : List (IxCand Fact κ)} :
    ∀ {c1 c2 : IxCand Fact κ},
      (∃ y ∈ L, prio indexes y < prio indexes c1 ∧ prio indexes y < prio indexes c2) →
        L.foldl (prioStep indexes) (some c1) = L.foldl (prioStep indexes) (some c2) := by
  induction L with
  | nil =>
    rintro c1 c2 ⟨y, hy, -⟩
    exact absurd hy (List.not_mem_nil y)
  | cons z t ih =>
    rintro c1 c2 ⟨y, hy, h1, h2⟩
    show List.foldl (prioStep indexes) (prioStep indexes (some c1) z) t =
      List.foldl (prioStep indexes) (prioStep indexes (some c2) z) t
    by_cases hz1 : indexes.indexOf z.1.spec < indexes.indexOf c1.1.spec <;>
      by_cases hz2 : indexes.indexOf z.1.spec < indexes.indexOf c2.1.spec
    · rw [show prioStep indexes (some c1) z = some z from by
        simp only [prioStep]; rw [if_pos hz1]]
      rw [show prioStep indexes (some c2) z = some z from by
        simp only [prioStep]; rw [if_pos hz2]]
    · rw [show prioStep indexes (some c1) z = some z from by
        simp only [prioStep]; rw [if_pos hz1]]
      rw [show prioStep indexes (some c2) z = some c2 from by
        simp only [prioStep]; rw [if_neg hz2]]
      have hyt : y ∈ t := by
        rcases List.mem_cons.mp hy with rfl | hyt
        · exact absurd h2 hz2
        · exact hyt
      exact ih ⟨y, hyt, lt_of_lt_of_le h2 (not_lt.mp hz2), h2⟩
    · rw [show prioStep indexes (some c1) z = some c1 from by
        simp only [prioStep]; rw [if_neg hz1]]
      rw [show prioStep indexes (some c2) z = some z from by
        simp only [prioStep]; rw [if_pos hz2]]
      have hyt : y ∈ t := by
        rcases List.mem_cons.mp hy with rfl | hyt
        · exact absurd h1 hz1
        · exact hyt
      exact ih ⟨y, hyt, h1, lt_of_lt_of_le h1 (not_lt.mp hz1)⟩
    · rw [show prioStep indexes (some c1) z = some c1 from by
        simp only [prioStep]; rw [if_neg hz1]]
      rw [show prioStep indexes (some c2) z = some c2 from by
        simp only [prioStep]; rw [if_neg hz2]]
      have hyt : y ∈ t := by
        rcases List.mem_cons.mp hy with rfl | hyt
        · exact absurd h1 hz1
        · exact hyt
      exact ih ⟨y, hyt, h1, h2⟩

theorem foldl_prioStep_absorb (indexes : List Nat) {L : List (IxCand Fact κ)} :
    ∀ {cur : IxCand Fact κ}, (∃ y ∈ L, prio indexes y < prio indexes cur) →
      L.foldl (prioStep indexes) (some cur) = leftMin indexes L := by
  induction L with
  | nil =>
    rintro cur ⟨y, hy, -⟩
    exact absurd hy (List.not_mem_nil y)
  | cons z t _ =>
    rintro cur ⟨y, hy, h1⟩
    show List.foldl (prioStep indexes) (prioStep indexes (some cur) z) t =
      List.foldl (prioStep indexes) (prioStep indexes none z) t
    by_cases hz : indexes.indexOf z.1.spec < indexes.indexOf cur.1.spec
    · rw [show prioStep indexes (some cur) z = some z from by
        simp only [prioStep]; rw [if_pos hz]]
      rfl
    · rw [show prioStep indexes (some cur) z = some cur from by
        simp only [prioStep]; rw [if_neg hz]]
      have hyt : y ∈ t := by
        rcases List.mem_cons.mp hy with rfl | hyt
        · exact absurd h1 hz
        · exact hyt
      exact foldl_prioStep_congr indexes
        ⟨y, hyt, h1, lt_of_lt_of_le h1 (not_lt.mp hz)⟩

theorem foldl_prioStep_isSome (indexes : List Nat) (L : List (IxCand Fact κ)) :
    ∀ cur : IxCand Fact κ, ∃ r, L.foldl (prioStep indexes) (some cur) = some r := by
  induction L with
  | nil => exact fun cur => ⟨cur, rfl⟩
  | cons z t ih =>
    intro cur
    show ∃ r, List.foldl (prioStep indexes) (prioStep indexes (some cur) z) t = some r
    by_cases hz : indexes.indexOf z.1.spec < indexes.indexOf cur.1.spec
    · rw [show prioStep indexes (some cur) z = some z from by
        simp only [prioStep]; rw [if_pos hz]]
      exact ih z
    · rw [show prioStep indexes (some cur) z = some cur from by
        simp only [prioStep]; rw [if_neg hz]]
      exact ih cur

theorem leftMin_eq_none_iff (indexes : List Nat) (L : List (IxCand Fact κ)) :
    leftMin indexes L = none ↔ L = [] := by
  cases L with
  | nil => exact ⟨fun _ => rfl, fun _ => rfl⟩
  | cons x t =>
    constructor
    · intro h
      obtain ⟨r, hr⟩ := foldl_prioStep_isSome indexes t x
      rw [show leftMin indexes (x :: t) =
        List.foldl (prioStep indexes) (some x) t from rfl, hr] at h
      exact Option.noConfusion h
    · intro h
      exact absurd h (List.cons_ne_nil x t)

theorem foldl_prioStep_min (indexes : List Nat) {L : List (IxCand Fact κ)} :
    ∀ {cur r : IxCand Fact κ}, L.foldl (prioStep indexes) (some cur) = some r →
      (r = cur ∨ r ∈ L) ∧ prio indexes r ≤ prio indexes cur ∧
        ∀ y ∈ L, prio indexes r ≤ prio indexes y := by
  induction L with
  | nil =>
    intro cur r h
    have : cur = r := Option.some.inj h
    subst this
    exact ⟨Or.inl rfl, le_refl _, fun y hy => absurd hy (List.not_mem_nil y)⟩
  | cons z t ih =>
    intro cur r h
    rw [show List.foldl (prioStep indexes) (some cur) (z :: t) =
      List.foldl (prioStep indexes) (prioStep indexes (some cur) z) t from rfl] at h
    by_cases hz : indexes.indexOf z.1.spec < indexes.indexOf cur.1.spec
    · rw [show prioStep indexes (some cur) z = some z from by
        simp only [prioStep]; rw [if_pos hz]] at h
      obtain ⟨hmem, hle, hall⟩ := ih h
      refine ⟨?_, ?_, ?_⟩
      · rcases hmem with rfl | hmem
        · exact Or.inr (List.mem_cons_self r t)
        · exact Or.inr (List.mem_cons_of_mem z hmem)
      · exact le_of_lt (lt_of_le_of_lt hle hz)
      · intro y hy
        rcases List.mem_cons.mp hy with rfl | hyt
        · exact hle
        · exact hall y hyt
    · rw [show prioStep indexes (some cur) z = some cur from by
        simp only [prioStep]; rw [if_neg hz]] at h
      obtain ⟨hmem, hle, hall⟩ := ih h
      refine ⟨?_, hle, ?_⟩
      · rcases hmem with rfl | hmem
        · exact Or.inl rfl
        · exact Or.inr (List.mem_cons_of_mem z hmem)
      · intro y hy
        rcases List.mem_cons.mp hy with rfl | hyt
        · exact le_trans hle (not_lt.mp hz)
        · exact hall y hyt

theorem leftMin_min (indexes : List Nat) {L : List (IxCand Fact κ)}
    {m : IxCand Fact κ} (h : leftMin indexes L = some m) :
    m ∈ L ∧ ∀ y ∈ L, prio indexes m ≤ prio indexes y := by
  cases L with
  | nil => exact Option.noConfusion h
  | cons x t =>
    rw [show leftMin indexes (x :: t) =
      List.foldl (prioStep indexes) (some x) t from rfl] at h
    obtain ⟨hmem, hle, hall⟩ := foldl_prioStep_min indexes h
    refine ⟨?_, ?_⟩
    · rcases hmem with rfl | hmem
      · exact List.mem_cons_self m t
      · exact List.mem_cons_of_mem x hmem
    · intro y hy
      rcases List.mem_cons.mp hy with rfl | hyt
      · exact hle
      · exact hall y hyt

theorem psCombine_leftMin (indexes : List Nat) (acc : Option (IxCand Fact κ))
    (L : List (IxCand Fact κ)) :
    psCombine indexes acc (leftMin indexes L) = L.foldl (prioStep indexes) acc := by
  cases acc with
  | none => rw [psCombine_none_left]; rfl
  | some cur =>
    cases h : leftMin indexes L with
    | none =>
      rw [(leftMin_eq_none_iff indexes L).mp h]
      rfl
    | some m =>
      obtain ⟨hm, hmin⟩ := leftMin_min indexes h
      show (if indexes.indexOf m.1.spec < indexes.indexOf cur.1.spec then some m
        else some cur) = List.foldl (prioStep indexes) (some cur) L
      by_cases hlt : indexes.indexOf m.1.spec < indexes.indexOf cur.1.spec
      · rw [if_pos hlt, foldl_prioStep_absorb indexes ⟨m, hm, hlt⟩, h]
      · rw [if_neg hlt, foldl_prioStep_stay indexes]
        intro y hy
        exact not_lt.mpr (le_trans (not_lt.mp hlt) (hmin y hy))

theorem find?_congr_mem {α : Type} {p q : α → Bool} :
    ∀ {l : List α}, (∀ x ∈ l, p x = q x) → l.find? p = l.find? q := by
  intro l
  induction l with
  | nil => intro _; rfl
  | cons a t ih =>
    intro h
    rw [List.find?_cons, List.find?_cons, h a (List.mem_cons_self a t)]
    cases q a
    · exact ih (fun x hx => h x (List.mem_cons_of_mem a hx))
    · rfl

theorem leftMin_eq_find? (indexes : List Nat) :
    ∀ L : List (IxCand Fact κ),
      leftMin indexes L = L.find? (fun x =>
        L.all (fun y => decide (prio indexes x ≤ prio indexes y))) := by
  intro L
  induction L with
  | nil => rfl
  | cons x M ih =>
    by_cases hx : ∀ y ∈ x :: M, prio indexes x ≤ prio indexes y
    · have hp : ((x :: M).all (fun y =>
          decide (prio indexes x ≤ prio indexes y))) = true := by
        rw [List.all_eq_true]
        intro y hy
        exact decide_eq_true (hx y hy)
      rw [List.find?_cons, hp]
      show List.foldl (prioStep indexes) (some x) M = some x
      exact foldl_prioStep_stay indexes
        (fun y hy => not_lt.mpr (hx y (List.mem_cons_of_mem x hy)))
    · push_neg at hx
      obtain ⟨y, hy, hylt⟩ := hx
      have hyM : y ∈ M := by
        rcases List.mem_cons.mp hy with rfl | hyM
        · exact absurd hylt (lt_irrefl _)
        · exact hyM
      have hp : ((x :: M).all (fun z =>
          decide (prio indexes x ≤ prio indexes z))) = false := by
        rw [List.all_eq_false]
        exact ⟨y, hy, by simp [not_le.mpr hylt]⟩
      rw [List.find?_cons, hp]
      show List.foldl (prioStep indexes) (some x) M = _
      rw [foldl_prioStep_absorb indexes ⟨y, hyM, hylt⟩, ih]
      apply find?_congr_mem
      intro z hz
      cases hM : M.all (fun w => decide (prio indexes z ≤ prio indexes w)) with
      | false =>
        rw [show ((x :: M).all (fun w =>
            decide (prio indexes z ≤ prio indexes w))) =
            (decide (prio indexes z ≤ prio indexes x) &&
              M.all (fun w => decide (prio indexes z ≤ prio indexes w))) from rfl]
        rw [hM, Bool.and_false]
      | true =>
        rw [show ((x :: M).all (fun w =>
            decide (prio indexes z ≤ prio indexes w))) =
            (decide (prio indexes z ≤ prio indexes x) &&
              M.all (fun w => decide (prio indexes z ≤ prio indexes w))) from rfl]
        rw [hM, Bool.and_true]
        have hzy : prio indexes z ≤ prio indexes y :=
          of_decide_eq_true (List.all_eq_true.mp hM y hyM)
        exact (decide_eq_true (le_of_lt (lt_of_le_of_lt hzy hylt))).symm

mutual
theorem primarySearch_eq_leftMin (indexes : List Nat) :
    (c : FComp Fact κ) →
      primarySearch indexes c = leftMin indexes (conjunctCandidates indexes c)
  | .static v => by simp [primarySearch, conjunctCandidates, leftMin]
  | .fq op a1 a2 => by
    simp only [primarySearch, conjunctCandidates]
    cases validateIndexable indexes (FComp.indexable (.fq op a1 a2)) with
    | none => rfl
    | some t => rfl
  | .bnot c => by simp [primarySearch, conjunctCandidates, leftMin]
  | .band cs => by
    simp only [primarySearch, conjunctCandidates]
    rw [primarySearchArgs_eq_foldl indexes cs none]
    rfl
  | .bor cs => by simp [primarySearch, conjunctCandidates, leftMin]

theorem primarySearchArgs_eq_foldl (indexes : List Nat) :
    (cs : List (FComp Fact κ)) → (acc : Option (IxCand Fact κ)) →
      primarySearchArgs indexes cs acc =
        (conjunctCandidatesList indexes cs).foldl (prioStep indexes) acc
  | [], acc => by simp [primarySearchArgs, conjunctCandidatesList]
  | c :: rest, acc => by
    simp only [primarySearchArgs, conjunctCandidatesList]
    rw [primarySearchArgs_eq_foldl indexes rest, primarySearch_eq_leftMin indexes c,
      psCombine_leftMin, List.foldl_append]
end

/-- C8: for every where condition handed to `_primary_search` (with
`indexes` the fact map's index specs in declaration order), the chosen
pre-filter is exactly the first element of the recursively collected
validated indexable leaf comparisons that attains the minimal priority
value, i.e. the candidate whose indexed path was declared earliest, the
first collected winning ties; when no eligible indexable leaf exists the
candidate list is empty and `find?` returns `none` (full scan). -/
theorem primary_search_picks_earliest_declared_index (indexes : List Nat)
    (c : FComp Fact κ) :
    primarySearch indexes c = (conjunctCandidates indexes c).find? (fun x =>
      (conjunctCandidates indexes c).all (fun y =>
        decide (prio indexes x ≤ prio indexes y))) := by
  rw [primarySearch_eq_leftMin, leftMin_eq_find?]

/-- C5: the claim states `singleton()`/`get_unique()` raise an
empty-result error on zero matches — never silently returning a default —
and an ambiguity error on more than one.  The new API's
`QueryImpl.singleton` and `SelectImpl.get_unique` return `None` on zero
results, and their `if found:` truthiness test even returns the second of
two results without raising when the first result is falsy. -/
theorem singleton_returns_default_on_empty :
    singletonImpl (fun n : ℤ => decide (n ≠ 0)) [] = .ok none ∧
      singletonImpl (fun n : ℤ => decide (n ≠ 0)) [0, 5] = .ok (some 5) :=
  ⟨rfl, rfl⟩

/-- C5 (amended): the old API's `_Select.get_unique` conforms to the
claim — `ValueError` on zero results and on a second result, the unique
element otherwise.  The new API's `QueryImpl.singleton` and
`SelectImpl.get_unique` instead return `None` on zero results, and raise
only when a result follows a truthy earlier one: a falsy first of two
results is silently overwritten by the second. -/
theorem singleton_get_unique_amended {α : Type} (truthy : α → Bool) (l : List α)
    (a b : α) (rest : List α) :
    (getUniqueImpl l = match l with
      | [] => .error .valueError
      | [x] => .ok (some x)
      | _ :: _ :: _ => .error .valueError) ∧
    singletonImpl truthy [] = .ok none ∧
    singletonImpl truthy [a] = .ok (some a) ∧
    (truthy a = true → singletonImpl truthy (a :: b :: rest) = .error .valueError) ∧
    (truthy a = false → singletonImpl truthy [a, b] = .ok (some b)) := by
  refine ⟨?_, rfl, rfl, ?_, ?_⟩
  · rcases l with _ | ⟨x, _ | ⟨y, t⟩⟩ <;> rfl
  · intro h
    simp [singletonImpl, singletonLoop, foundTruthy, h]
  · intro h
    simp [singletonImpl, singletonLoop, foundTruthy, h]

theorem singleton_get_unique_amended_witness :
    getUniqueImpl ([] : List ℤ) = .error .valueError ∧
    singletonImpl (fun n : ℤ => decide (n ≠ 0)) [7] = .ok (some 7) ∧
    singletonImpl (fun n : ℤ => decide (n ≠ 0)) [1, 5] = .error .valueError ∧
    singletonImpl (fun n : ℤ => decide (n ≠ 0)) [0, 5] = .ok (some 5) :=
  ⟨(singleton_get_unique_amended (fun n : ℤ => decide (n ≠ 0)) [] 0 0 []).1,
   (singleton_get_unique_amended (fun n : ℤ => decide (n ≠ 0)) [] 7 0 []).2.2.1,
   (singleton_get_unique_amended (fun n : ℤ => decide (n ≠ 0)) [] 1 5 []).2.2.2.1
     (by decide),
   (singleton_get_unique_amended (fun n : ℤ => decide (n ≠ 0)) [] 0 5 []).2.2.2.2
     (by decide)⟩

/-- C6: the claim states `fb.remove(f)` deletes a present fact and raises
a NotFound error exactly when it is absent, `fb.discard(f)` being the
lenient variant.  It fails before any of that can happen: both
implementations' `FactBase._remove` — to which `remove` and `discard`
delegate — evaluate the undefined name `arg` in their guard, so every
call raises `NameError` unconditionally, present or absent fact alike,
whatever the rest of the body would have done with the fact map. -/
theorem factbase_remove_always_name_error (fm : FactMap κ Fact) (fact : Fact)
    (raiseOnMissing : Bool)
    (rest : FactMap κ Fact → Fact → Bool → Except PyErr (FactMap κ Fact)) :
    factBase_remove fm fact raiseOnMissing rest = .error .nameError := rfl

/-- C9: the claim states `a.symmetric_difference(b)` yields per predicate
type the facts present in exactly one of the two, including when a type
has facts in only one operand.  It fails: the loop's `else` branch
unconditionally reads `other._factmaps[p]` — overwriting the copy of
`self`'s entry made on the line before — so a type present only in
`self` raises `KeyError`: with `a` holding the single fact `1` of type
`0` and `b` empty, the call raises instead of producing `{1}` for type
`0`. -/
theorem symmetric_difference_key_error :
    symmetricDifference fbA fbB = .error .keyError := rfl

/-- C10: the claim states an inconvertible right-hand value raises
`TypeError`.  On the full-scan path it does (the conversion sits in a
`try/except` that re-raises `TypeError`), but the indexed path's
conversion `value = cmplx(*value)` in `_Select.get` is unguarded, so a
wrong-arity tuple raises the constructor's `ValueError` instead: same
comparison, different exception type depending on whether the field is
indexed. -/
theorem index_path_conversion_raises_value_error :
    indexValuePrep (some ("f", 2)) (PyV.tup ([7] : List ℤ)) = .error .valueError ∧
      fqCallCore .eq (PyV.cplx "f" ([1, 2] : List ℤ)) (.tup [7]) = .error .typeError :=
  ⟨rfl, rfl⟩

/-- C10 (amended): when the left field value is a complex term and the
right-hand side a plain tuple of the class's arity, both paths convert
the tuple to the complex-term class before comparing — the scan-path
comparison behaves exactly as if the tuple were that complex term, and
the index path forwards the converted value; a complex term of a
different predicate name raises `TypeError` on the scan path; an
inconvertible (wrong-arity) tuple raises `TypeError` on the scan path but
`ValueError` on the indexed path, where the conversion is unguarded. -/
theorem where_tuple_conversion (op : CompOp) (n n' : String) (a b tv : List κ)
    (ar : Nat) :
    (tv.length = a.length →
      fqCallCore op (.cplx n a) (.tup tv) = fqCallCore op (.cplx n a) (.cplx n tv)) ∧
    (tv.length = ar → indexValuePrep (some (n, ar)) (.tup tv) = .ok (.cplx n tv)) ∧
    (n ≠ n' → fqCallCore op (.cplx n a) (.cplx n' b) = .error .typeError) ∧
    (tv.length ≠ a.length →
      fqCallCore op (.cplx n a) (.tup tv) = .error .typeError) ∧
    (tv.length ≠ ar → indexValuePrep (some (n, ar)) (.tup tv) = .error .valueError) := by
  refine ⟨?_, ?_, ?_, ?_, ?_⟩
  · intro h
    simp [fqCallCore, PyV.sameType, tryConvert, h]
  · intro h
    simp [indexValuePrep, h]
  · intro h
    simp [fqCallCore, PyV.sameType, h]
  · intro h
    simp [fqCallCore, PyV.sameType, tryConvert, h]
  · intro h
    simp [indexValuePrep, h]

theorem where_tuple_conversion_witness :
    (fqCallCore .eq (PyV.cplx "f" ([1, 2] : List ℤ)) (.tup [3, 4]) =
      fqCallCore .eq (PyV.cplx "f" ([1, 2] : List ℤ)) (.cplx "f" [3, 4])) ∧
    indexValuePrep (some ("f", 2)) (PyV.tup ([3, 4] : List ℤ)) = .ok (.cplx "f" [3, 4]) ∧
    fqCallCore .eq (PyV.cplx "f" ([1, 2] : List ℤ)) (.cplx "g" [5]) = .error .typeError ∧
    fqCallCore .eq (PyV.cplx "f" ([1, 2] : List ℤ)) (.tup [7, 8, 9]) = .error .typeError ∧
    indexValuePrep (some ("f", 2)) (PyV.tup ([7, 8, 9] : List ℤ)) = .error .valueError :=
  ⟨(where_tuple_conversion .eq "f" "g" [1, 2] [5] [3, 4] 2).1 (by decide),
   (where_tuple_conversion .eq "f" "g" [1, 2] [5] [3, 4] 2).2.1 (by decide),
   (where_tuple_conversion .eq "f" "g" [1, 2] [5] [3, 4] 2).2.2.1 (by decide),
   (where_tuple_conversion .eq "f" "g" [1, 2] [5] [7, 8, 9] 2).2.2.2.1 (by decide),
   (where_tuple_conversion .eq "f" "g" [1, 2] [5] [7, 8, 9] 2).2.2.2.2 (by decide)⟩

end Clorm
